import Mathlib

/-!
Verification development for the DeepHash engine of `deepdiff` (file
`deepdiff/deephash.py`).  The Python code is modelled by a shallow embedding:

* values form an explicit heap (`Heap`) of nodes addressed by identities
  (`get_id` is the heap address), so cyclic containers are representable;
* the registry `self.hashes` is an insertion-ordered association list from
  dual keys (value-keyed for hashable values, identity-keyed otherwise) to
  `(hash, itemCount)` entries, threaded through the traversal as explicit
  state;
* recursion is fuel-indexed; `Outcome.noFuel` marks fuel exhaustion and is
  proved unreachable for sufficient fuel, `Outcome.decodeFail` models an
  uncaught `UnicodeDecodeError` aborting the run;
* `sha256` digests are abstracted by the configurable `hasher : String → String`
  (the code's `hasher` argument); theorems quantify over it.

Helpers imported from `deepdiff/helper.py` (not among the provided sources)
are modelled from the spec where they matter and are marked as such in their
doc comments.  Unmodelled configuration corners (significant digits,
type groups, datetimes, filesystem paths, sets) are outside every claim and
are noted where they would enter.
-/

namespace DeepHashModel

/-- A scalar ("leaf") Python value: `None`, `bool`, `int`, `str` or `bytes`.
Byte strings are byte lists.  (Floats, datetimes and filesystem paths are not
modelled; no claim touches them.) -/
inductive Atom
  | aNone
  | aBool (b : Bool)
  | aInt (n : Int)
  | aStr (s : String)
  | aBytes (bs : List Nat)
deriving DecidableEq, Repr

/-! ### UTF-8 decoding (model of Python `bytes.decode`)

Modelled from the spec: "decode using the first successful encoding from a
configured candidate list (default: UTF-8 only)".  The decoder below follows
CPython's UTF-8 codec: on invalid input the strict decoder reports the byte
range `[errStart, errStop)` of the first maximal invalid subpart together
with CPython's reason text; the ignore-mode decoder drops exactly those
ranges. -/

/-- Is `b` a valid UTF-8 continuation byte? -/
def utf8Cont (b : Nat) : Bool := 128 ≤ b && b ≤ 191

/-- Valid range for the first continuation byte after lead `l`
(CPython rejects overlong/surrogate/out-of-range forms at this byte). -/
def utf8Cont1Ok (l b : Nat) : Bool :=
  if l = 224 then 160 ≤ b && b ≤ 191
  else if l = 237 then 128 ≤ b && b ≤ 159
  else if l = 240 then 144 ≤ b && b ≤ 191
  else if l = 244 then 128 ≤ b && b ≤ 143
  else utf8Cont b

/-- A decode failure as CPython reports it: byte range and reason. -/
structure UErr where
  errStart : Nat
  errStop : Nat
  reason : String
deriving DecidableEq, Repr

/-- Strict UTF-8 decode of the byte list starting at absolute position `pos`,
returning the decoded characters or the first error. -/
def utf8Strict (pos : Nat) : List Nat → Except UErr (List Char)
  | [] => .ok []
  | b :: rest =>
    if b < 128 then
      match utf8Strict (pos + 1) rest with
      | .ok cs => .ok (Char.ofNat b :: cs)
      | .error e => .error e
    else if b < 194 then
      .error ⟨pos, pos + 1, "invalid start byte"⟩
    else if b ≤ 223 then
      match rest with
      | [] => .error ⟨pos, pos + 1, "unexpected end of data"⟩
      | c :: rest2 =>
        if utf8Cont c then
          match utf8Strict (pos + 2) rest2 with
          | .ok cs => .ok (Char.ofNat ((b - 192) * 64 + (c - 128)) :: cs)
          | .error e => .error e
        else .error ⟨pos, pos + 1, "invalid continuation byte"⟩
    else if b ≤ 239 then
      match rest with
      | [] => .error ⟨pos, pos + 1, "unexpected end of data"⟩
      | c :: rest2 =>
        if utf8Cont1Ok b c then
          match rest2 with
          | [] => .error ⟨pos, pos + 2, "unexpected end of data"⟩
          | d :: rest3 =>
            if utf8Cont d then
              match utf8Strict (pos + 3) rest3 with
              | .ok cs => .ok (Char.ofNat ((b - 224) * 4096 + (c - 128) * 64 + (d - 128)) :: cs)
              | .error e => .error e
            else .error ⟨pos, pos + 2, "invalid continuation byte"⟩
        else .error ⟨pos, pos + 1, "invalid continuation byte"⟩
    else if b ≤ 244 then
      match rest with
      | [] => .error ⟨pos, pos + 1, "unexpected end of data"⟩
      | c :: rest2 =>
        if utf8Cont1Ok b c then
          match rest2 with
          | [] => .error ⟨pos, pos + 2, "unexpected end of data"⟩
          | d :: rest3 =>
            if utf8Cont d then
              match rest3 with
              | [] => .error ⟨pos, pos + 3, "unexpected end of data"⟩
              | e :: rest4 =>
                if utf8Cont e then
                  match utf8Strict (pos + 4) rest4 with
                  | .ok cs => .ok (Char.ofNat
                      ((b - 240) * 262144 + (c - 128) * 4096 + (d - 128) * 64 + (e - 128)) :: cs)
                  | .error er => .error er
                else .error ⟨pos, pos + 3, "invalid continuation byte"⟩
            else .error ⟨pos, pos + 2, "invalid continuation byte"⟩
        else .error ⟨pos, pos + 1, "invalid continuation byte"⟩
    else .error ⟨pos, pos + 1, "invalid start byte"⟩

/-- Ignore-mode UTF-8 decode: drops the same invalid subparts that
`utf8Strict` would report and keeps decoding. -/
def utf8Ignore : List Nat → List Char
  | [] => []
  | b :: rest =>
    if b < 128 then Char.ofNat b :: utf8Ignore rest
    else if b < 194 then utf8Ignore rest
    else if b ≤ 223 then
      match rest with
      | [] => []
      | c :: rest2 =>
        if utf8Cont c then Char.ofNat ((b - 192) * 64 + (c - 128)) :: utf8Ignore rest2
        else utf8Ignore (c :: rest2)
    else if b ≤ 239 then
      match rest with
      | [] => []
      | c :: rest2 =>
        if utf8Cont1Ok b c then
          match rest2 with
          | [] => []
          | d :: rest3 =>
            if utf8Cont d then
              Char.ofNat ((b - 224) * 4096 + (c - 128) * 64 + (d - 128)) :: utf8Ignore rest3
            else utf8Ignore (d :: rest3)
        else utf8Ignore (c :: rest2)
    else if b ≤ 244 then
      match rest with
      | [] => []
      | c :: rest2 =>
        if utf8Cont1Ok b c then
          match rest2 with
          | [] => []
          | d :: rest3 =>
            if utf8Cont d then
              match rest3 with
              | [] => []
              | e :: rest4 =>
                if utf8Cont e then
                  Char.ofNat ((b - 240) * 262144 + (c - 128) * 4096 + (d - 128) * 64 + (e - 128))
                    :: utf8Ignore rest4
                else utf8Ignore (e :: rest4)
            else utf8Ignore (d :: rest3)
        else utf8Ignore (c :: rest2)
    else utf8Ignore rest

/-- A candidate text encoding (the code's `encodings` option).  Only UTF-8 is
modelled; it is the default candidate list. -/
inductive Codec
  | utf8
deriving DecidableEq, Repr

def codecName : Codec → String
  | .utf8 => "utf-8"

def codecDecodeStrict : Codec → List Nat → Except UErr (List Char)
  | .utf8, bs => utf8Strict 0 bs

def codecDecodeIgnore : Codec → List Nat → List Char
  | .utf8, bs => utf8Ignore bs

/-- The `UnicodeDecodeError` that `prepare_string_for_hashing` re-raises
(`err.encoding, err.object, err.start, err.end` plus the rebuilt reason). -/
structure DecodeError where
  encoding : String
  object : List Nat
  errStart : Nat
  errStop : Nat
  reason : String
deriving DecidableEq, Repr

instance (ε α : Type) [DecidableEq ε] [DecidableEq α] : DecidableEq (Except ε α) :=
  fun x y =>
    match x, y with
    | .ok a, .ok b =>
      if h : a = b then isTrue (by rw [h])
      else isFalse (by intro hc; cases hc; exact h rfl)
    | .error a, .error b =>
      if h : a = b then isTrue (by rw [h])
      else isFalse (by intro hc; cases hc; exact h rfl)
    | .ok _, .error _ => isFalse (by intro hc; cases hc)
    | .error _, .ok _ => isFalse (by intro hc; cases hc)

/-- Modelled from the spec: the repository's `KEY_TO_VAL_STR = "{}:{}"` lives in
`deepdiff/helper.py`, which is not among the provided sources; the spec fixes
the format as `"<type-tag>:<normalized-value>"` for canonical leaves and
`"<keyHash>:<valueHash>"` for mapping fragments. -/
def keyToValStr (a b : String) : String := a ++ ":" ++ b

/-- The bounded excerpt of `prepare_string_for_hashing` (lines 92-101):
`obj_decoded = obj.decode('utf-8', errors='ignore')`,
`start = max(err.start - 20, 0)` with `'...'` prefix when `start > 0`,
`end = err.end + 20` capped at `len(obj)` — the byte length — with `'...'`
suffix when not capped; the slice `obj_decoded[start:end]` indexes the decoded
*character* string with those byte-derived numbers.  Returns
(prefix marker, excerpt, suffix marker). -/
def decodeErrorContext (bs : List Nat) (e : UErr) : String × String × String :=
  let objDecoded := utf8Ignore bs
  let start := if 20 ≤ e.errStart then e.errStart - 20 else 0
  let preMarker := if 0 < start then "..." else ""
  let stop0 := e.errStop + 20
  let stop := if bs.length ≤ stop0 then bs.length else stop0
  let postMarker := if bs.length ≤ stop0 then "" else "..."
  (preMarker, ((objDecoded.drop start).take (stop - start)).asString, postMarker)

/-- The full reason text of the re-raised `UnicodeDecodeError` (line 107). -/
def decodeErrorMessage (bs : List Nat) (e : UErr) : String :=
  let ctx := decodeErrorContext bs e
  e.reason ++ " in '" ++ ctx.1 ++ ctx.2.1 ++ ctx.2.2 ++
    "'. Please either pass ignore_encoding_errors=True or pass the encoding via encodings=['utf-8', '...']."

/-- Decode the byte string with the candidate encodings (lines 80-108):
try each in order with `errors_mode` (`'ignore'` when encoding errors are
tolerated, else `'strict'`); on total failure re-raise the last error with the
bounded excerpt.  An empty candidate list is a caller error (Python would
crash on `err.start` with `err = None`); it is modelled as a decode failure
with reason `"no encoding attempted"`. -/
def prepDecodeBytes (bs : List Nat) (encodings : Option (List Codec))
    (ignoreEncodingErrors : Bool) : Except DecodeError String :=
  let encs := encodings.getD [.utf8]
  if ignoreEncodingErrors then
    match encs with
    | [] => .error ⟨"", bs, 0, 0, "no encoding attempted"⟩
    | c :: _ => .ok (codecDecodeIgnore c bs).asString
  else
    let rec go : List Codec → Option (Codec × UErr) → Except DecodeError String
      | [], none => .error ⟨"", bs, 0, 0, "no encoding attempted"⟩
      | [], some (c, e) =>
        .error ⟨codecName c, bs, e.errStart, e.errStop, decodeErrorMessage bs e⟩
      | c :: cs, last =>
        match codecDecodeStrict c bs with
        | .ok chars => .ok chars.asString
        | .error e =>
          let _ := last
          go cs (some (c, e))
    go encs none

/-- A Python text-or-bytes string (the `strings` type group of the code). -/
inductive PyStr
  | txt (s : String)
  | bin (bs : List Nat)
deriving DecidableEq, Repr

/-- `prepare_string_for_hashing` (lines 67-113): decode byte strings, prefix
the original type name as tag unless string-type differences are ignored,
lowercase when case-insensitive. -/
def prepareStringForHashing (obj : PyStr)
    (ignoreStringTypeChanges : Bool := false) (ignoreStringCase : Bool := false)
    (encodings : Option (List Codec) := none) (ignoreEncodingErrors : Bool := false) :
    Except DecodeError String :=
  let originalType := match obj with | .txt _ => "str" | .bin _ => "bytes"
  let decoded : Except DecodeError String :=
    match obj with
    | .txt s => .ok s
    | .bin bs => prepDecodeBytes bs encodings ignoreEncodingErrors
  match decoded with
  | .error e => .error e
  | .ok s =>
    let s := if ignoreStringTypeChanges then s else keyToValStr originalType s
    .ok (if ignoreStringCase then s.toLower else s)

/-! ### Sorting (model of Python `list.sort` / `sorted` on strings)

Python sorts strings lexicographically by code point; Lean's `String`
linear order is the same lexicographic order on `Char`.  `pySort` is an
insertion sort; any comparison sort agrees with it extensionally. -/

def pyInsert (x : String) : List String → List String
  | [] => [x]
  | y :: ys => if x ≤ y then x :: y :: ys else y :: pyInsert x ys

def pySort : List String → List String
  | [] => []
  | x :: xs => pyInsert x (pySort xs)

theorem pyInsert_perm (x : String) (l : List String) :
    List.Perm (pyInsert x l) (x :: l) := by
  induction l with
  | nil => simp [pyInsert]
  | cons y ys ih =>
    by_cases h : x ≤ y
    · simp [pyInsert, h]
    · simp only [pyInsert, if_neg h]
      exact (ih.cons y).trans (List.Perm.swap x y ys)

theorem pySort_perm (l : List String) : List.Perm (pySort l) l := by
  induction l with
  | nil => simp [pySort]
  | cons x xs ih => exact (pyInsert_perm x (pySort xs)).trans (ih.cons x)

theorem pyInsert_sorted (x : String) (l : List String)
    (h : l.Sorted (· ≤ ·)) : (pyInsert x l).Sorted (· ≤ ·) := by
  induction l with
  | nil => simp [pyInsert]
  | cons y ys ih =>
    rcases List.sorted_cons.1 h with ⟨hy, hys⟩
    by_cases hxy : x ≤ y
    · simp only [pyInsert, if_pos hxy]
      refine List.sorted_cons.2 ⟨fun b hb => ?_, h⟩
      rcases List.mem_cons.1 hb with rfl | hb
      · exact hxy
      · exact le_trans hxy (hy _ hb)
    · simp only [pyInsert, if_neg hxy]
      refine List.sorted_cons.2 ⟨fun b hb => ?_, ih hys⟩
      rcases List.mem_cons.1 ((pyInsert_perm x ys).mem_iff.1 hb) with rfl | hb
      · exact le_of_not_le hxy
      · exact hy _ hb

theorem pySort_sorted (l : List String) : (pySort l).Sorted (· ≤ ·) := by
  induction l with
  | nil => simp [pySort]
  | cons x xs ih => exact pyInsert_sorted x (pySort xs) ih

/-- Permuted inputs sort to the same list: the sorted-output uniqueness that
makes fragment sorting order-insensitive. -/
theorem pySort_eq_of_perm {l₁ l₂ : List String} (h : List.Perm l₁ l₂) :
    pySort l₁ = pySort l₂ :=
  List.eq_of_perm_of_sorted
    ((pySort_perm l₁).trans (h.trans (pySort_perm l₂).symm))
    (pySort_sorted l₁) (pySort_sorted l₂)

/-! ### The value heap -/

/-- A generic object's introspectable surface, as `_prep_obj` probes it:
`asdict` models `o._asdict()` (named-tuple field extraction), `dunderDict`
models `o.__dict__`, `slots` models `o.__slots__` with each slot's value
(`none` = unset slot, so `getattr` raises `AttributeError`), `members` models
`inspect.getmembers(o, not isroutine)` (`none` = raises).  `none` at the top
level means the attribute itself is missing. -/
structure ObjShape where
  className : String
  asdict : Option (List (Atom × Nat))
  dunderDict : Option (List (Atom × Nat))
  slots : Option (List (Atom × Option Nat))
  members : Option (List (Atom × Nat))
deriving DecidableEq, Repr

/-- A node of the value graph.  Children are heap identities (`get_id`),
dictionary keys and object attribute names are scalars.  `ntupleN` is a tuple
with `_asdict` (named tuple); `tupleN` a plain tuple; `objN` a generic object
reaching `_prep_obj` with `is_namedtuple=False`. -/
inductive Node
  | atom (a : Atom)
  | listN (elems : List Nat)
  | tupleN (elems : List Nat)
  | dictN (entries : List (Atom × Nat))
  | ntupleN (shape : ObjShape)
  | objN (shape : ObjShape)
deriving DecidableEq, Repr

/-- The heap: finite map from identity to node. -/
def Heap := List (Nat × Node)

/-- Heap lookup; a dangling identity behaves as `None` (cannot arise from a
real Python object graph). -/
def heapGet (h : Heap) (i : Nat) : Node :=
  (List.lookup i h).getD (.atom .aNone)

/-- `type(obj).__name__`. -/
def nodeTypeName : Node → String
  | .atom .aNone => "NoneType"
  | .atom (.aBool _) => "bool"
  | .atom (.aInt _) => "int"
  | .atom (.aStr _) => "str"
  | .atom (.aBytes _) => "bytes"
  | .listN _ => "list"
  | .tupleN _ => "tuple"
  | .dictN _ => "dict"
  | .ntupleN sh => sh.className
  | .objN sh => sh.className

/-- Python `str()` of a scalar, for path building and key formatting. -/
def atomKeyStr : Atom → String
  | .aNone => "None"
  | .aBool b => if b then "True" else "False"
  | .aInt n => n.repr
  | .aStr s => s
  | .aBytes bs => "b'" ++ (utf8Ignore bs).asString ++ "'"

/-! ### The registry (`self.hashes`) -/

/-- A registry key: the dual key of the code.  Hashable values are stored
under themselves (`byAtom`, with booleans first converted to the `BoolObj`
wrapper, and all-scalar tuples under their value), unhashable containers
under `get_id` (`byId`); `unprocKey` is the internal `UNPROCESSED_KEY`
sentinel.  (Python additionally value-keys tuples whose members are hashable
containers, and aliases `True == 1` inside tuple keys; neither corner is
reachable in this development.) -/
inductive RKey
  | byAtom (a : Atom)
  | byBool (b : Bool)
  | byTuple (elems : List Atom)
  | byId (i : Nat)
  | unprocKey
deriving DecidableEq, Repr

/-- A hash result: `nil` is Python's `None` (filtered out), `strRes` a
canonical string or digest, `unproc` the `unprocessed` sentinel. -/
inductive HRes
  | nil
  | strRes (s : String)
  | unproc
deriving DecidableEq, Repr

/-- A registry value: a `(hash, itemCount)` entry, or (under `unprocKey`
only) the list of undecomposable objects. -/
inductive RVal
  | he (r : HRes) (count : Nat)
  | unprocList (ids : List Nat)
deriving DecidableEq, Repr

def regLookup (reg : List (RKey × RVal)) (k : RKey) : Option RVal :=
  (reg.find? (fun p => p.fst == k)).map Prod.snd

/-- Python dict assignment: overwrite in place (keys are unique, so the first
occurrence is the binding), else append — insertion order is preserved. -/
def regStore (reg : List (RKey × RVal)) (k : RKey) (v : RVal) : List (RKey × RVal) :=
  match reg with
  | [] => [(k, v)]
  | p :: rest => if p.fst == k then (k, v) :: rest else p :: regStore rest k v

/-- Python `del`. -/
def regDel (reg : List (RKey × RVal)) (k : RKey) : List (RKey × RVal) :=
  reg.filter (fun p => !(p.fst == k))

/-- The traversal state: the registry plus a ghost trace recording the key of
every full (non-memoized) computation's write-back at lines 543-547.  The
trace has no influence on any computed hash; it only observes whether a value
was recomputed or served from the registry. -/
structure DHState where
  hashes : List (RKey × RVal)
  trace : List RKey
deriving Repr, DecidableEq

/-! ### Configuration -/

/-- The construction options of `DeepHash.__init__` that the model covers.
`hasher` abstracts `default_hasher` (sha256); `excludeRegexPaths` models the
compiled regexes as their `search` predicates; `excludeObjCallback` receives
the value's node and the parent path.  `exclude_paths`/`include_paths` are
the post-`add_root_to_paths` sets (the helper, absent from the sources, is
modelled from the spec as the exact path-set used for matching; every path in
this development is already root-prefixed).  `significant_digits`,
`truncate_datetime`, `number_format_notation`, `ignore_type_in_groups`,
`ignore_type_subclasses` and `number_to_string_func` keep their defaults and
are not modelled. -/
structure DHConfig where
  hasher : String → String
  excludeTypes : List String := []
  excludePaths : List String := []
  includePaths : List String := []
  excludeRegexPaths : List (String → Bool) := []
  ignoreRepetition : Bool := true
  applyHash : Bool := true
  ignoreStringTypeChanges : Bool := false
  ignoreNumericTypeChanges : Bool := false
  ignoreStringCase : Bool := false
  excludeObjCallback : Option (Node → String → Bool) := none
  ignorePrivateVariables : Bool := true
  encodings : Option (List Codec) := none
  ignoreEncodingErrors : Bool := false
  ignoreListOrder : Bool := true

/-- `DeepHash._skip_this` (lines 343-361), with the exact branch structure:
an exact exclude-path match sets `skip`; a configured include-path set (for a
non-root parent) *overrides* it — keeping `skip` as-is on an exact include
match, clearing it on a prefix match, setting it otherwise; only when the
include branch is not taken does the `elif` chain (regex, types, callback)
run, each able only to set `skip`.  `strStartsWith` models Python
`str.startswith` as character-list prefix (extensionally `String.startsWith`,
but kernel-computable). -/
def strStartsWith (s pre : String) : Bool :=
  pre.data.isPrefixOf s.data

def skipThis (cfg : DHConfig) (obj : Node) (parent : String) : Bool :=
  let skip0 := !cfg.excludePaths.isEmpty && cfg.excludePaths.contains parent
  if !cfg.includePaths.isEmpty && parent != "root" then
    if cfg.includePaths.contains parent then skip0
    else if cfg.includePaths.any (fun p => strStartsWith parent p) then false
    else true
  else if !cfg.excludeRegexPaths.isEmpty && cfg.excludeRegexPaths.any (fun rx => rx parent) then
    true
  else if !cfg.excludeTypes.isEmpty && cfg.excludeTypes.contains (nodeTypeName obj) then
    true
  else if (match cfg.excludeObjCallback with
           | some cb => cb obj parent
           | none => false) then
    true
  else skip0

/-! ### The traversal (`DeepHash._hash` and its handlers) -/

/-- Result of a traversal step: a value, an uncaught `UnicodeDecodeError`
(which aborts the whole run), or fuel exhaustion (an artifact of the
fuel-indexed embedding, proved unreachable for sufficient fuel). -/
inductive Outcome (α : Type)
  | ok (a : α)
  | decodeFail (e : DecodeError)
  | noFuel
deriving Repr, DecidableEq

/-- Python `'%s'`-truthiness of a hash result: `None` and the empty string
are falsy (`if not key_hash: continue`). -/
def hresFalsy : HRes → Bool
  | .nil => true
  | .strRes s => s.isEmpty
  | .unproc => false

/-- `str()`/`'{}'.format()` of a hash result.  Modelled from the spec: the
`unprocessed` sentinel lives in `deepdiff/helper.py`; its rendering is only
reachable when an undecomposable child's sentinel is embedded in a parent's
fragment. -/
def hresFormat : HRes → String
  | .nil => "None"
  | .strRes s => s
  | .unproc => "unprocessed"

/-- The registry key a value is stored under when it *is* usable as a dict
key: scalars by value (bools as `BoolObj`), all-scalar tuples by value, and
generic objects under themselves — the default `__hash__` is identity, so the
object-as-key coincides with its identity key (named tuples are conflated
with this identity keying; Python would value-key them, a corner no claim
reaches).  `none` = unhashable (`TypeError` at lines 481/544), stored by
identity instead. -/
def tupleAtoms (heap : Heap) : List Nat → Option (List Atom)
  | [] => some []
  | i :: is =>
    match heapGet heap i with
    | .atom a => (tupleAtoms heap is).map (fun l => a :: l)
    | _ => none

def atomRKey : Atom → RKey
  | .aBool b => .byBool b
  | a => .byAtom a

def valueKeyOf (heap : Heap) (i : Nat) : Option RKey :=
  match heapGet heap i with
  | .atom a => some (atomRKey a)
  | .tupleN es => (tupleAtoms heap es).map RKey.byTuple
  | .objN _ => some (.byId i)
  | .ntupleN _ => some (.byId i)
  | _ => none

/-- Registry lookup that unpacks a `(hash, count)` entry
(`result, counts = self.hashes[obj]`). -/
def regEntry (reg : List (RKey × RVal)) (k : RKey) : Option (HRes × Nat) :=
  match regLookup reg k with
  | some (.he r c) => some (r, c)
  | _ => none

/-- The canonical string of a scalar, per the `_hash` dispatch: `None`,
strings via `prepare_string_for_hashing`, numbers via `_prep_number` (with
`significant_digits=None`), booleans via the `BoolObj` branch. -/
def atomCanonical (cfg : DHConfig) : Atom → Except DecodeError String
  | .aNone => .ok "NONE"
  | .aBool b => .ok (if b then "bool:true" else "bool:false")
  | .aStr s =>
    prepareStringForHashing (.txt s) cfg.ignoreStringTypeChanges cfg.ignoreStringCase
      cfg.encodings cfg.ignoreEncodingErrors
  | .aBytes bs =>
    prepareStringForHashing (.bin bs) cfg.ignoreStringTypeChanges cfg.ignoreStringCase
      cfg.encodings cfg.ignoreEncodingErrors
  | .aInt n =>
    .ok (keyToValStr (if cfg.ignoreNumericTypeChanges then "number" else "int") n.repr)

/-- Digest application (lines 531-538): when `apply_hash` is set, re-clean
non-string results through `prepare_string_for_hashing` and hash; string
values were already cleaned. -/
def applyHasher (cfg : DHConfig) (isStrings : Bool) (result : String) :
    Except DecodeError String :=
  if cfg.applyHash then
    if isStrings then .ok (cfg.hasher result)
    else
      match prepareStringForHashing (.txt result) cfg.ignoreStringTypeChanges
          cfg.ignoreStringCase none false with
      | .ok rc => .ok (cfg.hasher rc)
      | .error e => .error e
  else .ok result

/-- `_hash` restricted to a scalar value (every branch a scalar can reach):
convert bools to `BoolObj`, return a memoized entry if the value is a key of
the registry, consult the filter, canonicalize, apply the hasher, store the
`(hash, 1)` entry under the value.  Scalars never recurse, so no fuel is
needed. -/
def hashAtomCore (cfg : DHConfig) (a : Atom) (parent : String) (st : DHState) :
    Outcome ((HRes × Nat) × DHState) :=
  match regEntry st.hashes (atomRKey a) with
  | some rc => .ok (rc, st)
  | none =>
    if skipThis cfg (.atom a) parent then .ok ((.nil, 0), st)
    else
      match atomCanonical cfg a with
      | .error e => .decodeFail e
      | .ok canon =>
        match applyHasher cfg (match a with
                               | .aStr _ => true
                               | .aBytes _ => true
                               | _ => false) canon with
        | .error e => .decodeFail e
        | .ok res =>
          .ok ((.strRes res, 1),
               ⟨regStore st.hashes (atomRKey a) (.he (.strRes res) 1),
                st.trace ++ [atomRKey a]⟩)

/-- The child path token of a mapping entry (`key_text % ...`, lines 368-375):
`parent[key]` with string keys quoted for true mappings, `parent.key` in
attribute mode. -/
def dictKeyPath (printAsAttribute : Bool) (parent : String) (key : Atom) : String :=
  if printAsAttribute then parent ++ "." ++ atomKeyStr key
  else
    let kf := match key with
      | .aStr s => "'" ++ s ++ "'"
      | .aBytes bs => "'" ++ atomKeyStr (.aBytes bs) ++ "'"
      | k => atomKeyStr k
    parent ++ "[" ++ kf ++ "]"

/-- The child path of a sequence element, `"{}[{}]".format(parent, i)`. -/
def iterItemPath (parent : String) (i : Nat) : String :=
  parent ++ "[" ++ Nat.repr i ++ "]"

/-- Is a mapping key skipped as private (`__`-prefixed string key with
`ignore_private_variables`)? -/
def privateKeySkip (cfg : DHConfig) : Atom → Bool
  | .aStr s => cfg.ignorePrivateVariables && s.startsWith "__"
  | _ => false

/-- The entry loop of `_prep_dict` (lines 369-387), generic in the recursive
child hasher.  The accumulator carries the fragment list (in entry order; the
caller sorts), the running count and the state.  Per entry: count the entry,
skip private keys, hash the key (an atom) and skip the entry if the key hash
is falsy, skip cycling or filtered values, then hash the value with the
extended ancestor set and append the `"<keyHash>:<valueHash>"` fragment. -/
def prepDictGo (cfg : DHConfig) (heap : Heap)
    (hashChild : Nat → String → List Nat → DHState → Outcome ((HRes × Nat) × DHState))
    (printAsAttribute : Bool) (parent : String) (pids : List Nat) :
    List (Atom × Nat) → (List String × Nat × DHState) →
    Outcome (List String × Nat × DHState)
  | [], acc => .ok acc
  | (key, itemId) :: rest, (frags, counts, st) =>
    let counts := counts + 1
    if privateKeySkip cfg key then
      prepDictGo cfg heap hashChild printAsAttribute parent pids rest (frags, counts, st)
    else
      let keyInReport := dictKeyPath printAsAttribute parent key
      match hashAtomCore cfg key keyInReport st with
      | .decodeFail e => .decodeFail e
      | .noFuel => .noFuel
      | .ok ((keyHash, _), st1) =>
        if hresFalsy keyHash then
          prepDictGo cfg heap hashChild printAsAttribute parent pids rest (frags, counts, st1)
        else if !pids.isEmpty && pids.contains itemId then
          prepDictGo cfg heap hashChild printAsAttribute parent pids rest (frags, counts, st1)
        else if skipThis cfg (heapGet heap itemId) keyInReport then
          prepDictGo cfg heap hashChild printAsAttribute parent pids rest (frags, counts, st1)
        else
          match hashChild itemId keyInReport (pids.insert itemId) st1 with
          | .decodeFail e => .decodeFail e
          | .noFuel => .noFuel
          | .ok ((itemHash, c), st2) =>
            let frag := keyToValStr (hresFormat keyHash) (hresFormat itemHash)
            prepDictGo cfg heap hashChild printAsAttribute parent pids rest
              (frags ++ [frag], counts + c, st2)

/-- Assembles `_prep_dict`'s return string (lines 389-400): sort the
fragments, join with `;`, wrap as `type:{...}`.  With the default (empty)
`ignore_type_in_groups` the attribute-mode tag is the object's type name. -/
def dictResultString (typeStr : String) (frags : List String) : String :=
  typeStr ++ ":" ++ "\x7b" ++ String.intercalate ";" (pySort frags) ++ "\x7d"

/-- Increment of `defaultdict(int)` under insertion order
(`result[hashed] += 1`, line 419). -/
def bumpCount : List (HRes × Nat) → HRes → List (HRes × Nat)
  | [], h => [(h, 1)]
  | (k, c) :: rest, h =>
    if k = h then (k, c + 1) :: rest else (k, c) :: bumpCount rest h

/-- The element loop of `_prep_iterable` (lines 407-420), generic in the
recursive child hasher: per element, build the indexed path, skip filtered or
cycling elements, hash and count repetitions by hash value. -/
def prepIterGo (cfg : DHConfig) (heap : Heap)
    (hashChild : Nat → String → List Nat → DHState → Outcome ((HRes × Nat) × DHState))
    (parent : String) (pids : List Nat) :
    List Nat → Nat → (List (HRes × Nat) × Nat × DHState) →
    Outcome (List (HRes × Nat) × Nat × DHState)
  | [], _, acc => .ok acc
  | itemId :: rest, idx, (bumps, counts, st) =>
    let newParent := iterItemPath parent idx
    if skipThis cfg (heapGet heap itemId) newParent then
      prepIterGo cfg heap hashChild parent pids rest (idx + 1) (bumps, counts, st)
    else if !pids.isEmpty && pids.contains itemId then
      prepIterGo cfg heap hashChild parent pids rest (idx + 1) (bumps, counts, st)
    else
      match hashChild itemId newParent (pids.insert itemId) st with
      | .decodeFail e => .decodeFail e
      | .noFuel => .noFuel
      | .ok ((itemHash, c), st1) =>
        prepIterGo cfg heap hashChild parent pids rest (idx + 1)
          (bumpCount bumps itemHash, counts + c, st1)

/-- Assembles `_prep_iterable`'s return string (lines 422-433): drop counts
when repetition-insensitive, else tag each hash as `"<hash>|<count>"`; sort
when order-insensitive; join with `,`, tag with the container type name. -/
def iterResultString (cfg : DHConfig) (typeStr : String)
    (bumps : List (HRes × Nat)) : String :=
  let items :=
    if cfg.ignoreRepetition then bumps.map (fun p => hresFormat p.fst)
    else bumps.map (fun p => hresFormat p.fst ++ "|" ++ Nat.repr p.snd)
  let items := if cfg.ignoreListOrder then pySort items else items
  keyToValStr typeStr (String.intercalate "," items)

/-- The first strategy of `_prep_obj` (lines 317-320): `o._asdict()` for a
named tuple, else `o.__dict__`; `none` = `AttributeError`. -/
def objStrategy1 (isNamedtuple : Bool) (sh : ObjShape) : Option (List (Atom × Nat)) :=
  if isNamedtuple then sh.asdict else sh.dunderDict

/-- `{i: getattr(o, i) for i in o.__slots__}`: fails when any slot is unset. -/
def slotsMap : List (Atom × Option Nat) → Option (List (Atom × Nat))
  | [] => some []
  | (k, some v) :: rest => (slotsMap rest).map (fun l => (k, v) :: l)
  | (_, none) :: _ => none

/-- The second strategy of `_prep_obj` (lines 322-325): slot enumeration when
the object declares `__slots__`, else `inspect.getmembers` of non-callables.
Note only *one* of the two is in the strategy list. -/
def objStrategy2 (sh : ObjShape) : Option (List (Atom × Nat)) :=
  match sh.slots with
  | some sl => slotsMap sl
  | none => sh.members

/-- The strategy chain of `_prep_obj` (lines 316-335): the first of the (at
most two) listed strategies that succeeds. -/
def objExtract (isNamedtuple : Bool) (sh : ObjShape) : Option (List (Atom × Nat)) :=
  match objStrategy1 isNamedtuple sh with
  | some d => some d
  | none => objStrategy2 sh

/-- `self.hashes[UNPROCESSED_KEY].append(obj)` (line 334). -/
def regAppendUnprocessed (reg : List (RKey × RVal)) (i : Nat) : List (RKey × RVal) :=
  match regLookup reg .unprocKey with
  | some (.unprocList l) => regStore reg .unprocKey (.unprocList (l ++ [i]))
  | _ => regStore reg .unprocKey (.unprocList [i])

/-- The tail of `_hash` for a composite value (lines 525-549): `unprocessed`
results skip hashing; otherwise the canonical string is re-cleaned and
hashed; either way the `(result, counts)` pair is written back — under the
value when hashable, else under its identity — and the ghost trace records
the write. -/
def dhFinish (cfg : DHConfig) (heap : Heap) (i : Nat)
    (res : HRes) (cnt : Nat) (st : DHState) : Outcome ((HRes × Nat) × DHState) :=
  let appliedO : Outcome HRes :=
    match res with
    | .strRes s =>
      match applyHasher cfg false s with
      | .ok r => .ok (.strRes r)
      | .error e => .decodeFail e
    | r => .ok r
  match appliedO with
  | .decodeFail e => .decodeFail e
  | .noFuel => .noFuel
  | .ok applied =>
    let key := (valueKeyOf heap i).getD (.byId i)
    .ok ((applied, cnt),
         ⟨regStore st.hashes key (.he applied cnt), st.trace ++ [key]⟩)

/-- `DeepHash._hash` (lines 471-549) over the heap, fuel-indexed.  Scalars go
through `hashAtomCore`.  For a composite value: the memoization probe
succeeds only when the value is hashable (line 481 raises `TypeError`
otherwise — identity-keyed entries are *not* consulted); then the filter;
then the dispatch to `_prep_dict` / `_prep_tuple` / `_prep_iterable` /
`_prep_obj`; finally `dhFinish`. -/
def dhHash (cfg : DHConfig) (heap : Heap) :
    Nat → Nat → String → List Nat → DHState → Outcome ((HRes × Nat) × DHState)
  | 0, _, _, _, _ => .noFuel
  | Nat.succ f, i, parent, pids, st =>
    match heapGet heap i with
    | .atom a => hashAtomCore cfg a parent st
    | node =>
      let probe := match valueKeyOf heap i with
        | some k => regEntry st.hashes k
        | none => none
      match probe with
      | some rc => .ok (rc, st)
      | none =>
        if skipThis cfg node parent then .ok ((.nil, 0), st)
        else
          let child := fun (j : Nat) (path : String) (pids' : List Nat) (st' : DHState) =>
            dhHash cfg heap f j path pids' st'
          match node with
          | .atom a => hashAtomCore cfg a parent st
          | .dictN entries =>
            match prepDictGo cfg heap child false parent pids entries ([], 1, st) with
            | .decodeFail e => .decodeFail e
            | .noFuel => .noFuel
            | .ok (frags, counts, st1) =>
              dhFinish cfg heap i (.strRes (dictResultString "dict" frags)) counts st1
          | .listN es =>
            match prepIterGo cfg heap child parent pids es 0 ([], 1, st) with
            | .decodeFail e => .decodeFail e
            | .noFuel => .noFuel
            | .ok (bumps, counts, st1) =>
              dhFinish cfg heap i (.strRes (iterResultString cfg "list" bumps)) counts st1
          | .tupleN es =>
            match prepIterGo cfg heap child parent pids es 0 ([], 1, st) with
            | .decodeFail e => .decodeFail e
            | .noFuel => .noFuel
            | .ok (bumps, counts, st1) =>
              dhFinish cfg heap i (.strRes (iterResultString cfg "tuple" bumps)) counts st1
          | .ntupleN sh =>
            match objExtract true sh with
            | none =>
              dhFinish cfg heap i .unproc 0
                ⟨regAppendUnprocessed st.hashes i, st.trace⟩
            | some d =>
              match prepDictGo cfg heap child true parent pids d ([], 1, st) with
              | .decodeFail e => .decodeFail e
              | .noFuel => .noFuel
              | .ok (frags, counts, st1) =>
                dhFinish cfg heap i
                  (.strRes ("nt" ++ dictResultString sh.className frags)) counts st1
          | .objN sh =>
            match objExtract false sh with
            | none =>
              dhFinish cfg heap i .unproc 0
                ⟨regAppendUnprocessed st.hashes i, st.trace⟩
            | some d =>
              match prepDictGo cfg heap child true parent pids d ([], 1, st) with
              | .decodeFail e => .decodeFail e
              | .noFuel => .noFuel
              | .ok (frags, counts, st1) =>
                dhFinish cfg heap i
                  (.strRes ("obj" ++ dictResultString sh.className frags)) counts st1

/-- The registry as seeded by `__init__` (lines 158-171): the caller's
mapping (taken as the state, mutated in place) with `UNPROCESSED_KEY`
(re)bound to the empty list. -/
def initState (seed : List (RKey × RVal)) : DHState :=
  ⟨regStore seed .unprocKey (.unprocList []), []⟩

/-- The unprocessed list currently recorded in a registry. -/
def regUnprocessed (reg : List (RKey × RVal)) : List Nat :=
  match regLookup reg .unprocKey with
  | some (.unprocList l) => l
  | _ => []

/-- One full `DeepHash` construction (lines 196-201): seed the registry, hash
the root with parent `"root"` and ancestor set `{get_id(obj)}`, then delete
the `UNPROCESSED_KEY` entry exactly when no unprocessed value was recorded.
Returns the root's `(hash, count)` and the final state. -/
def deepHashRun (cfg : DHConfig) (heap : Heap) (seed : List (RKey × RVal))
    (rootId : Nat) (fuel : Nat) : Outcome ((HRes × Nat) × DHState) :=
  match dhHash cfg heap fuel rootId "root" [rootId] (initState seed) with
  | .ok (rc, st) =>
    if (regUnprocessed st.hashes).isEmpty then
      .ok (rc, ⟨regDel st.hashes .unprocKey, st.trace⟩)
    else .ok (rc, st)
  | other => other

/-- Enough fuel for any traversal of `heap` (proved below): one unit per
distinct identity plus the root and a scalar leaf. -/
def defaultFuel (heap : Heap) : Nat := heap.length + 2

/-- The root digest of a fresh run (what `DeepHash(obj)[obj]` returns). -/
def deepHashDigest (cfg : DHConfig) (heap : Heap) (rootId : Nat) : Outcome HRes :=
  match deepHashRun cfg heap [] rootId (defaultFuel heap) with
  | .ok ((r, _), _) => .ok r
  | .decodeFail e => .decodeFail e
  | .noFuel => .noFuel

/-! ### The query API (`DeepHash._getitem`, `DeepHash.get_key`) -/

/-- `extract_index`: `0` for the hash, `1` for the count, `None` for both. -/
inductive ExtractIx
  | hashIx
  | countIx
  | bothIx
deriving DecidableEq, Repr

/-- A lookup result: the stored digest, the stored item count, the pair, or
(for the internal `UNPROCESSED_KEY`) the unprocessed list. -/
inductive GetRes
  | hashOnly (h : HRes)
  | countOnly (n : Nat)
  | pair (h : HRes) (n : Nat)
  | unprocessedIds (l : List Nat)
deriving DecidableEq, Repr

def rvalExtract (v : RVal) (ex : ExtractIx) : GetRes :=
  match v with
  | .unprocList l => .unprocessedIds l
  | .he h c =>
    match ex with
    | .hashIx => .hashOnly h
    | .countIx => .countOnly c
    | .bothIx => .pair h c

/-- Best-effort `str(obj)` for the lookup error message. -/
def nodeStr (heap : Heap) (i : Nat) : String :=
  match heapGet heap i with
  | .atom a => atomKeyStr a
  | n => "<" ++ nodeTypeName n ++ " object>"

/-- `HASH_LOOKUP_ERR_MSG.format(obj)` (line 25). -/
def hashLookupErrMsg (objStr : String) : String :=
  objStr ++ " is not one of the hashed items."

/-- `DeepHash._getitem` (lines 209-236) for a value living at heap id `i`:
look the value up under itself when it is usable as a key (bools as
`BoolObj`); on `TypeError` (unhashable) or `KeyError` fall back to
`get_id(obj)`; if that also misses, raise the distinct "not found"
`KeyError`.  (`UNPROCESSED_KEY` itself, whose lookup forces
`extract_index=None`, is an internal sentinel and not addressable through a
heap id.) -/
def dhGetItem (hashes : List (RKey × RVal)) (heap : Heap) (i : Nat)
    (ex : ExtractIx) : Except String GetRes :=
  let found : Option RVal :=
    match valueKeyOf heap i with
    | some k =>
      match regLookup hashes k with
      | some v => some v
      | none => regLookup hashes (.byId i)
    | none => regLookup hashes (.byId i)
  match found with
  | none => .error (hashLookupErrMsg (nodeStr heap i))
  | some v => .ok (rvalExtract v ex)

/-- `DeepHash.get_key` (lines 256-267): `_getitem` with the `KeyError`
replaced by the supplied default. -/
def dhGetKey (hashes : List (RKey × RVal)) (heap : Heap) (i : Nat)
    (ex : ExtractIx) (dflt : GetRes) : GetRes :=
  match dhGetItem hashes heap i ex with
  | .ok r => r
  | .error _ => dflt

/-! ### Concrete heap builders and configurations for the theorems -/

/-- The default configuration with the given hasher (all options at their
`__init__` defaults). -/
def mkCfg (hasher : String → String) : DHConfig := { hasher := hasher }

/-- Consecutive identities `b, b+1, ...` for the elements of a list. -/
def listIdsFrom : List Atom → Nat → List Nat
  | [], _ => []
  | _ :: as, b => b :: listIdsFrom as (b + 1)

/-- The scalar nodes of a flat list, at identities `b, b+1, ...`. -/
def atomNodesFrom : List Atom → Nat → List (Nat × Node)
  | [], _ => []
  | a :: as, b => (b, Node.atom a) :: atomNodesFrom as (b + 1)

/-- A heap holding a flat list of scalars: the list at id 0, element `j` at
id `j+1`. -/
def mkListHeap (l : List Atom) : Heap :=
  (0, Node.listN (listIdsFrom l 1)) :: atomNodesFrom l 1

/-- The dict entries of a flat dict, values at identities `b, b+1, ...`. -/
def dictEntriesFrom : List (Atom × Atom) → Nat → List (Atom × Nat)
  | [], _ => []
  | (k, _) :: rest, b => (k, b) :: dictEntriesFrom rest (b + 1)

/-- The scalar value nodes of a flat dict, at identities `b, b+1, ...`. -/
def dictAtomNodesFrom : List (Atom × Atom) → Nat → List (Nat × Node)
  | [], _ => []
  | (_, v) :: rest, b => (b, Node.atom v) :: dictAtomNodesFrom rest (b + 1)

/-- A heap holding a flat dict of scalars: the dict at id 0, the value of
entry `j` at id `j+1`. -/
def mkDictHeap (l : List (Atom × Atom)) : Heap :=
  (0, Node.dictN (dictEntriesFrom l 1)) :: dictAtomNodesFrom l 1

/-! ### Pure characterization of scalar hashing -/

/-- The value `_hash` computes and stores for a scalar on a registry miss
(canonicalization followed by digest application). -/
def atomPure (cfg : DHConfig) (a : Atom) : Except DecodeError String :=
  match atomCanonical cfg a with
  | .error e => .error e
  | .ok canon =>
    applyHasher cfg (match a with
                     | .aStr _ => true
                     | .aBytes _ => true
                     | _ => false) canon

/-- Does the scalar hash without a decode error? -/
def atomOk (cfg : DHConfig) (a : Atom) : Bool :=
  match atomPure cfg a with
  | .ok _ => true
  | .error _ => false

/-- The scalar's stored hash string (meaningful when `atomOk`). -/
def atomDigest (cfg : DHConfig) (a : Atom) : String :=
  match atomPure cfg a with
  | .ok s => s
  | .error _ => ""

theorem atomPure_eq_of_ok {cfg : DHConfig} {a : Atom} (h : atomOk cfg a = true) :
    atomPure cfg a = .ok (atomDigest cfg a) := by
  unfold atomOk at h
  unfold atomDigest
  cases hp : atomPure cfg a with
  | ok s => rfl
  | error e => rw [hp] at h; simp at h

/-- No filter option is configured (the `__init__` defaults). -/
def NoFilter (cfg : DHConfig) : Prop :=
  cfg.excludePaths = [] ∧ cfg.includePaths = [] ∧ cfg.excludeRegexPaths = [] ∧
    cfg.excludeTypes = [] ∧ cfg.excludeObjCallback = none

theorem skipThis_noFilter {cfg : DHConfig} (h : NoFilter cfg) (n : Node) (p : String) :
    skipThis cfg n p = false := by
  obtain ⟨h1, h2, h3, h4, h5⟩ := h
  simp [skipThis, h1, h2, h3, h4, h5]

/-- With only exact exclude paths configured, `_skip_this` is the
membership test on the parent path. -/
theorem skipThis_onlyExclude {cfg : DHConfig}
    (h2 : cfg.includePaths = []) (h3 : cfg.excludeRegexPaths = [])
    (h4 : cfg.excludeTypes = []) (h5 : cfg.excludeObjCallback = none)
    (n : Node) (p : String) :
    skipThis cfg n p = (!cfg.excludePaths.isEmpty && cfg.excludePaths.contains p) := by
  simp [skipThis, h2, h3, h4, h5]

/-! ### Registry lemmas -/

theorem regLookup_regStore (reg : List (RKey × RVal)) (k : RKey) (v : RVal) (k' : RKey) :
    regLookup (regStore reg k v) k' = if k' = k then some v else regLookup reg k' := by
  induction reg with
  | nil =>
    by_cases hk' : k' = k
    · subst hk'; simp [regStore, regLookup, List.find?]
    · have hkk : (k == k') = false := beq_eq_false_iff_ne.2 (fun hc => hk' hc.symm)
      simp [regStore, regLookup, List.find?, hkk, hk']
  | cons p rest ih =>
    by_cases hp : p.fst = k
    · by_cases hk' : k' = k
      · subst hk'
        simp [regStore, regLookup, List.find?, beq_iff_eq.2 hp]
      · have hkk : (k == k') = false := beq_eq_false_iff_ne.2 (fun hc => hk' hc.symm)
        have hpk' : (p.fst == k') = false :=
          beq_eq_false_iff_ne.2 (fun hc => hk' (hc.symm.trans hp))
        simp [regStore, regLookup, List.find?, beq_iff_eq.2 hp, hkk, hpk', hk']
    · have hpb : (p.fst == k) = false := beq_eq_false_iff_ne.2 hp
      by_cases hpk' : p.fst = k'
      · have hk' : ¬ k' = k := fun hc => hp (hpk'.trans hc)
        simp [regStore, regLookup, List.find?, hpb, beq_iff_eq.2 hpk', hk']
      · have hpk'b : (p.fst == k') = false := beq_eq_false_iff_ne.2 hpk'
        simp only [regStore, hpb, Bool.false_eq_true, if_false]
        simp only [regLookup, List.find?, hpk'b] at *
        exact ih

theorem regLookup_regDel (reg : List (RKey × RVal)) (k k' : RKey) (h : k' ≠ k) :
    regLookup (regDel reg k) k' = regLookup reg k' := by
  induction reg with
  | nil => rfl
  | cons p rest ih =>
    by_cases hp : p.fst = k
    · have hpb : (p.fst == k) = true := beq_iff_eq.2 hp
      have hpk' : (p.fst == k') = false := beq_eq_false_iff_ne.2 (by
        intro hc; exact h (hc ▸ hp ▸ rfl))
      simp [regDel, regLookup, List.find?, hpb, hpk'] at *
      exact ih
    · have hpb : (p.fst == k) = false := beq_eq_false_iff_ne.2 hp
      by_cases hpk' : p.fst = k'
      · simp [regDel, regLookup, List.find?, hpb, beq_iff_eq.2 hpk']
      · simp [regDel, regLookup, List.find?, hpb,
              beq_eq_false_iff_ne.2 hpk'] at *
        exact ih

theorem regLookup_regDel_self (reg : List (RKey × RVal)) (k : RKey) :
    regLookup (regDel reg k) k = none := by
  induction reg with
  | nil => rfl
  | cons p rest ih =>
    by_cases hp : p.fst = k
    · simpa [regDel, regLookup, List.find?, beq_iff_eq.2 hp] using ih
    · have hpb : (p.fst == k) = false := beq_eq_false_iff_ne.2 hp
      simpa [regDel, regLookup, List.find?, hpb] using ih

theorem atomRKey_inj {a a' : Atom} (h : atomRKey a = atomRKey a') : a = a' := by
  cases a <;> cases a' <;> simp_all [atomRKey]

theorem atomRKey_ne_unprocKey (a : Atom) : atomRKey a ≠ RKey.unprocKey := by
  cases a <;> simp [atomRKey]

theorem atomRKey_ne_byId (a : Atom) (i : Nat) : atomRKey a ≠ RKey.byId i := by
  cases a <;> simp [atomRKey]

/-- The registry is coherent on scalar keys: every entry stored under a
scalar value is that scalar's pure hash with count 1. -/
def AtomCoherent (cfg : DHConfig) (reg : List (RKey × RVal)) : Prop :=
  ∀ a v, regLookup reg (atomRKey a) = some v →
    atomOk cfg a = true ∧ v = .he (.strRes (atomDigest cfg a)) 1

theorem atomCoherent_init (cfg : DHConfig) :
    AtomCoherent cfg (initState []).hashes := by
  intro a v hv
  have hne : (RKey.unprocKey == atomRKey a) = false :=
    beq_eq_false_iff_ne.2 (fun hc => atomRKey_ne_unprocKey a hc.symm)
  simp [initState, regStore, regLookup, List.find?, hne] at hv

theorem atomCoherent_store (cfg : DHConfig) {reg : List (RKey × RVal)}
    (hco : AtomCoherent cfg reg) (a : Atom) (hok : atomOk cfg a = true) :
    AtomCoherent cfg (regStore reg (atomRKey a) (.he (.strRes (atomDigest cfg a)) 1)) := by
  intro a' v hv
  rw [regLookup_regStore] at hv
  by_cases h : atomRKey a' = atomRKey a
  · have : a' = a := atomRKey_inj h
    subst this
    rw [if_pos h] at hv
    exact ⟨hok, (Option.some_injective _ hv).symm⟩
  · rw [if_neg h] at hv
    exact hco a' v hv

/-- `hashAtomCore` on a coherent registry returns the pure scalar hash with
count 1 and preserves coherence (the memoization probe and the fresh
computation agree). -/
theorem hashAtomCore_ok (cfg : DHConfig) (a : Atom) (parent : String) (st : DHState)
    (hskip : skipThis cfg (.atom a) parent = false)
    (hco : AtomCoherent cfg st.hashes)
    (hok : atomOk cfg a = true) :
    ∃ st', hashAtomCore cfg a parent st = .ok (((.strRes (atomDigest cfg a)), 1), st') ∧
      AtomCoherent cfg st'.hashes := by
  have hpure := atomPure_eq_of_ok hok
  unfold atomPure at hpure
  simp only [hashAtomCore]
  cases hprobe : regEntry st.hashes (atomRKey a) with
  | some rc =>
    refine ⟨st, ?_, hco⟩
    unfold regEntry at hprobe
    cases hl : regLookup st.hashes (atomRKey a) with
    | none => rw [hl] at hprobe; simp at hprobe
    | some v =>
      obtain ⟨_, hv⟩ := hco a v hl
      subst hv
      rw [hl] at hprobe
      simp only [Option.some.injEq] at hprobe
      rw [← hprobe]
  | none =>
    rw [hskip]
    cases hc : atomCanonical cfg a with
    | error e => rw [hc] at hpure; simp at hpure
    | ok canon =>
      rw [hc] at hpure
      dsimp only at hpure
      simp only [Bool.false_eq_true, if_false]
      rw [hpure]
      exact ⟨_, rfl, atomCoherent_store cfg hco a hok⟩

/-! ### Fold lemmas: flat (all-scalar) containers compute pure folds -/

/-- Do the dict entries resolve, over `heap`, to the given scalar key/value
pairs, with no value identity among the ancestors? -/
def resolvesDictB (heap : Heap) (pids : List Nat) :
    List (Atom × Nat) → List (Atom × Atom) → Bool
  | [], [] => true
  | (k, i) :: es, (k', a) :: rs =>
    k == k' && heapGet heap i == Node.atom a && !pids.contains i &&
      resolvesDictB heap pids es rs
  | _, _ => false

/-- Do the element ids resolve, over `heap`, to the given scalars, with no
identity among the ancestors? -/
def resolvesAtomsB (heap : Heap) (pids : List Nat) :
    List Nat → List Atom → Bool
  | [], [] => true
  | i :: is, a :: as =>
    heapGet heap i == Node.atom a && !pids.contains i &&
      resolvesAtomsB heap pids is as
  | _, _ => false

/-- The fragment a flat dict entry contributes (`none` when skipped: private
key, or falsy key hash). -/
def dictFragPure (cfg : DHConfig) (kv : Atom × Atom) : Option String :=
  if privateKeySkip cfg kv.fst then none
  else if (atomDigest cfg kv.fst).isEmpty then none
  else some (keyToValStr (atomDigest cfg kv.fst) (atomDigest cfg kv.snd))

theorem dhHash_atom (cfg : DHConfig) (heap : Heap) (f : Nat) {j : Nat} {a : Atom}
    (h : heapGet heap j = .atom a) (p : String) (pids : List Nat) (st : DHState) :
    dhHash cfg heap (Nat.succ f) j p pids st = hashAtomCore cfg a p st := by
  simp [dhHash, h]

theorem prepDictGo_atoms (cfg : DHConfig) (heap : Heap) (f : Nat)
    (hnf : NoFilter cfg) (printAsAttr : Bool) (parent : String) (pids : List Nat) :
    ∀ (entries : List (Atom × Nat)) (res : List (Atom × Atom))
      (frags0 : List String) (counts0 : Nat) (st : DHState),
      resolvesDictB heap pids entries res = true →
      res.all (fun kv => atomOk cfg kv.fst && atomOk cfg kv.snd) = true →
      AtomCoherent cfg st.hashes →
      ∃ st',
        prepDictGo cfg heap
            (fun j path pids' s => dhHash cfg heap (Nat.succ f) j path pids' s)
            printAsAttr parent pids entries (frags0, counts0, st) =
          .ok (frags0 ++ res.filterMap (dictFragPure cfg),
               counts0 + res.length + (res.filterMap (dictFragPure cfg)).length, st') ∧
        AtomCoherent cfg st'.hashes := by
  intro entries
  induction entries with
  | nil =>
    intro res frags0 counts0 st hres hok hco
    cases res with
    | nil => exact ⟨st, by simp [prepDictGo], hco⟩
    | cons r rs => simp [resolvesDictB] at hres
  | cons e es ih =>
    intro res frags0 counts0 st hres hok hco
    obtain ⟨k, i⟩ := e
    cases res with
    | nil => simp [resolvesDictB] at hres
    | cons r rs =>
      obtain ⟨k', a⟩ := r
      simp only [resolvesDictB, Bool.and_eq_true, beq_iff_eq] at hres
      obtain ⟨⟨⟨hk, hg⟩, hpid⟩, hrest⟩ := hres
      subst hk
      simp only [List.all_cons, Bool.and_eq_true] at hok
      obtain ⟨⟨hokk, hoka⟩, hokrest⟩ := hok
      by_cases hpriv : privateKeySkip cfg k = true
      · obtain ⟨st', hrun, hco'⟩ := ih rs frags0 (counts0 + 1) st hrest hokrest hco
        refine ⟨st', ?_, hco'⟩
        have harith : counts0 + 1 + rs.length + (rs.filterMap (dictFragPure cfg)).length =
            counts0 + (rs.length + 1) +
              (rs.filterMap (dictFragPure cfg)).length := by omega
        simp only [prepDictGo, hpriv, if_true]
        rw [hrun, harith]
        simp [dictFragPure, hpriv]
      · have hpriv' : privateKeySkip cfg k = false := by
          cases h : privateKeySkip cfg k with
          | true => exact absurd h hpriv
          | false => rfl
        have hkskip : skipThis cfg (.atom k)
            (dictKeyPath printAsAttr parent k) = false := skipThis_noFilter hnf _ _
        obtain ⟨st1, hkey, hco1⟩ :=
          hashAtomCore_ok cfg k (dictKeyPath printAsAttr parent k) st hkskip hco hokk
        by_cases hemp : (atomDigest cfg k).isEmpty = true
        · obtain ⟨st', hrun, hco'⟩ := ih rs frags0 (counts0 + 1) st1 hrest hokrest hco1
          refine ⟨st', ?_, hco'⟩
          have harith : counts0 + 1 + rs.length + (rs.filterMap (dictFragPure cfg)).length =
              counts0 + (rs.length + 1) +
                (rs.filterMap (dictFragPure cfg)).length := by omega
          simp only [prepDictGo, hpriv', Bool.false_eq_true, if_false]
          rw [hkey]
          simp only [hresFalsy, hemp, if_true]
          rw [hrun, harith]
          simp [dictFragPure, hpriv', hemp]
        · have hemp' : (atomDigest cfg k).isEmpty = false := by
            cases h : (atomDigest cfg k).isEmpty with
            | true => exact absurd h hemp
            | false => rfl
          have hiskip : skipThis cfg (heapGet heap i)
              (dictKeyPath printAsAttr parent k) = false := skipThis_noFilter hnf _ _
          have hchild := dhHash_atom cfg heap f hg
            (dictKeyPath printAsAttr parent k) (pids.insert i) st1
          obtain ⟨st2, hval, hco2⟩ :=
            hashAtomCore_ok cfg a (dictKeyPath printAsAttr parent k) st1
              (skipThis_noFilter hnf _ _) hco1 hoka
          obtain ⟨st', hrun, hco'⟩ := ih rs
            (frags0 ++ [keyToValStr (atomDigest cfg k) (atomDigest cfg a)])
            (counts0 + 1 + 1) st2 hrest hokrest hco2
          refine ⟨st', ?_, hco'⟩
          have harith : counts0 + 1 + 1 + rs.length +
              (rs.filterMap (dictFragPure cfg)).length =
              counts0 + (rs.length + 1) +
                ((rs.filterMap (dictFragPure cfg)).length + 1) := by omega
          simp only [prepDictGo, hpriv', Bool.false_eq_true, if_false]
          rw [hkey]
          simp only [hresFalsy, hemp', Bool.false_eq_true, if_false, hpid,
                     Bool.and_false, Bool.not_false, Bool.and_true]
          have hnotin : ¬ i ∈ pids := by simpa using hpid
          rw [if_neg (by simp [hnotin]), if_neg (by simp [hiskip]), hchild, hval]
          simp only [hresFormat]
          rw [hrun, harith]
          have : dictFragPure cfg (k, a) =
              some (keyToValStr (atomDigest cfg k) (atomDigest cfg a)) := by
            simp [dictFragPure, hpriv', hemp']
          simp [this, List.append_assoc]

/-! ### Decimal numerals: `Nat.repr` (Python `str(i)`) is injective -/

def digitsVal (l : List Char) : Nat :=
  l.foldl (fun acc c => 10 * acc + (c.toNat - 48)) 0

theorem digitsVal_append_singleton (xs : List Char) (c : Char) :
    digitsVal (xs ++ [c]) = 10 * digitsVal xs + (c.toNat - 48) := by
  simp [digitsVal, List.foldl_append]

theorem digitChar_toNat {d : Nat} (h : d < 10) : (Nat.digitChar d).toNat = 48 + d := by
  interval_cases d <;> rfl

theorem toDigitsCore_acc (f : Nat) : ∀ (n : Nat) (ds : List Char),
    Nat.toDigitsCore 10 f n ds = Nat.toDigitsCore 10 f n [] ++ ds := by
  induction f with
  | zero => intro n ds; simp [Nat.toDigitsCore]
  | succ f ih =>
    intro n ds
    simp only [Nat.toDigitsCore]
    by_cases h : n / 10 = 0
    · simp [h]
    · simp only [h, if_false]
      rw [ih (n / 10) (Nat.digitChar (n % 10) :: ds),
          ih (n / 10) [Nat.digitChar (n % 10)]]
      simp

theorem toDigitsCore_val (f : Nat) : ∀ n : Nat, n < f →
    digitsVal (Nat.toDigitsCore 10 f n []) = n := by
  induction f with
  | zero => intro n h; omega
  | succ f ih =>
    intro n h
    simp only [Nat.toDigitsCore]
    by_cases hd : n / 10 = 0
    · have hn : n < 10 := by omega
      have hm : n % 10 = n := Nat.mod_eq_of_lt hn
      simp only [hd, if_true, digitsVal, List.foldl_cons, List.foldl_nil, hm]
      rw [digitChar_toNat hn]
      omega
    · simp only [hd, if_false]
      rw [toDigitsCore_acc, digitsVal_append_singleton]
      have h10 : 0 < n := by
        by_contra hc
        have : n = 0 := by omega
        subst this
        simp at hd
      have hlt : n / 10 < f := by
        have := Nat.div_lt_self h10 (by omega : 1 < 10)
        omega
      rw [ih (n / 10) hlt, digitChar_toNat (Nat.mod_lt n (by omega))]
      omega

theorem natRepr_val (n : Nat) : digitsVal (Nat.repr n).data = n := by
  show digitsVal ((Nat.toDigits 10 n).asString).data = n
  have : ((Nat.toDigits 10 n).asString).data = Nat.toDigits 10 n :=
    List.toList_asString (Nat.toDigits 10 n)
  rw [this]
  exact toDigitsCore_val (n + 1) n (Nat.lt_succ_self n)

theorem natRepr_inj {m n : Nat} (h : Nat.repr m = Nat.repr n) : m = n := by
  have hv := congrArg (fun s => digitsVal s.data) h
  simpa [natRepr_val] using hv

theorem toDigitsCore_ne_nil (f : Nat) (n : Nat) (h : 0 < f) :
    Nat.toDigitsCore 10 f n [] ≠ [] := by
  cases f with
  | zero => omega
  | succ f =>
    simp only [Nat.toDigitsCore]
    by_cases hd : n / 10 = 0
    · simp [hd]
    · simp only [hd, if_false]
      rw [toDigitsCore_acc]
      simp

theorem natRepr_ne_empty (n : Nat) : Nat.repr n ≠ "" := by
  show (Nat.toDigits 10 n).asString ≠ ""
  intro hc
  have hl := congrArg String.data hc
  have hd : ((Nat.toDigits 10 n).asString).data = Nat.toDigits 10 n :=
    List.toList_asString (Nat.toDigits 10 n)
  rw [hd] at hl
  exact toDigitsCore_ne_nil (n + 1) n (by omega) hl

theorem natRepr_data_inj {m n : Nat} (h : (Nat.repr m).data = (Nat.repr n).data) :
    m = n := by
  have hv := congrArg digitsVal h
  simpa [natRepr_val] using hv

theorem iterItemPath_inj {p : String} {m k : Nat}
    (h : iterItemPath p m = iterItemPath p k) : m = k := by
  unfold iterItemPath at h
  have hdata := congrArg String.data h
  simp only [String.data_append] at hdata
  have h1 := List.append_cancel_right hdata
  have h2 := List.append_cancel_left h1
  exact natRepr_data_inj h2

theorem iterItemPath_ne_of_ne {p : String} {m k : Nat} (h : m ≠ k) :
    iterItemPath p m ≠ iterItemPath p k :=
  fun hc => h (iterItemPath_inj hc)

/-! ### Iterable fold lemmas -/

theorem prepIterGo_atoms (cfg : DHConfig) (heap : Heap) (f : Nat)
    (parent : String) (pids : List Nat) :
    ∀ (items : List Nat) (res : List Atom) (idx : Nat)
      (bumps0 : List (HRes × Nat)) (counts0 : Nat) (st : DHState),
      resolvesAtomsB heap pids items res = true →
      res.all (atomOk cfg) = true →
      (∀ m a, res[m]? = some a →
        skipThis cfg (.atom a) (iterItemPath parent (idx + m)) = false) →
      AtomCoherent cfg st.hashes →
      ∃ st',
        prepIterGo cfg heap
            (fun j path pids' s => dhHash cfg heap (Nat.succ f) j path pids' s)
            parent pids items idx (bumps0, counts0, st) =
          .ok (List.foldl bumpCount bumps0
                 (res.map (fun a => HRes.strRes (atomDigest cfg a))),
               counts0 + res.length, st') ∧
        AtomCoherent cfg st'.hashes := by
  intro items
  induction items with
  | nil =>
    intro res idx bumps0 counts0 st hres hok hskips hco
    cases res with
    | nil => exact ⟨st, by simp [prepIterGo], hco⟩
    | cons r rs => simp [resolvesAtomsB] at hres
  | cons i is ih =>
    intro res idx bumps0 counts0 st hres hok hskips hco
    cases res with
    | nil => simp [resolvesAtomsB] at hres
    | cons a rs =>
      simp only [resolvesAtomsB, Bool.and_eq_true, beq_iff_eq] at hres
      obtain ⟨⟨hg, hpid⟩, hrest⟩ := hres
      simp only [List.all_cons, Bool.and_eq_true] at hok
      obtain ⟨hoka, hokrest⟩ := hok
      have hskip0 : skipThis cfg (.atom a) (iterItemPath parent idx) = false := by
        have := hskips 0 a (by simp)
        simpa using this
      have hnotin : ¬ i ∈ pids := by simpa using hpid
      have hchild := dhHash_atom cfg heap f hg (iterItemPath parent idx)
        (pids.insert i) st
      obtain ⟨st1, hval, hco1⟩ :=
        hashAtomCore_ok cfg a (iterItemPath parent idx) st hskip0 hco hoka
      have hskips' : ∀ m b, rs[m]? = some b →
          skipThis cfg (.atom b) (iterItemPath parent (idx + 1 + m)) = false := by
        intro m b hb
        have := hskips (m + 1) b (by simpa using hb)
        have harith : idx + (m + 1) = idx + 1 + m := by omega
        rwa [harith] at this
      obtain ⟨st', hrun, hco'⟩ := ih rs (idx + 1)
        (bumpCount bumps0 (.strRes (atomDigest cfg a))) (counts0 + 1) st1
        hrest hokrest hskips' hco1
      refine ⟨st', ?_, hco'⟩
      simp only [prepIterGo, hg]
      rw [if_neg (by simp [hskip0]), if_neg (by simp [hnotin]), hchild, hval]
      dsimp only
      rw [hrun]
      have harith : counts0 + 1 + rs.length = counts0 + (rs.length + 1) := by omega
      rw [harith]
      simp

/-- Splitting the element loop over an append. -/
theorem prepIterGo_append (cfg : DHConfig) (heap : Heap)
    (hashChild : Nat → String → List Nat → DHState → Outcome ((HRes × Nat) × DHState))
    (parent : String) (pids : List Nat) :
    ∀ (xs ys : List Nat) (idx : Nat) (acc : List (HRes × Nat) × Nat × DHState),
      prepIterGo cfg heap hashChild parent pids (xs ++ ys) idx acc =
        (match prepIterGo cfg heap hashChild parent pids xs idx acc with
         | .ok acc' => prepIterGo cfg heap hashChild parent pids ys (idx + xs.length) acc'
         | .decodeFail e => .decodeFail e
         | .noFuel => .noFuel) := by
  intro xs
  induction xs with
  | nil =>
    intro ys idx acc
    obtain ⟨bumps, counts, st⟩ := acc
    simp [prepIterGo]
  | cons x xs ih =>
    intro ys idx acc
    obtain ⟨bumps, counts, st⟩ := acc
    have harith : idx + 1 + xs.length = idx + (xs.length + 1) := by omega
    simp only [List.cons_append, prepIterGo, List.append_eq]
    by_cases h1 : skipThis cfg (heapGet heap x) (iterItemPath parent idx) = true
    · rw [if_pos h1, if_pos h1, ih]
      simp only [List.length_cons, harith]
    · rw [if_neg h1, if_neg h1]
      by_cases h2 : (!pids.isEmpty && pids.contains x) = true
      · rw [if_pos h2, if_pos h2, ih]
        simp only [List.length_cons, harith]
      · rw [if_neg h2, if_neg h2]
        cases hch : hashChild x (iterItemPath parent idx) (pids.insert x) st with
        | ok r =>
          obtain ⟨⟨ih', c⟩, st1⟩ := r
          dsimp only
          rw [ih]
          simp only [List.length_cons, harith]
        | decodeFail e => rfl
        | noFuel => rfl

/-- A filtered element contributes nothing: the loop continues with the
accumulator untouched (only the position advances). -/
theorem prepIterGo_skip (cfg : DHConfig) (heap : Heap)
    (hashChild : Nat → String → List Nat → DHState → Outcome ((HRes × Nat) × DHState))
    (parent : String) (pids : List Nat) (x : Nat) (rest : List Nat) (idx : Nat)
    (acc : List (HRes × Nat) × Nat × DHState)
    (h : skipThis cfg (heapGet heap x) (iterItemPath parent idx) = true) :
    prepIterGo cfg heap hashChild parent pids (x :: rest) idx acc =
      prepIterGo cfg heap hashChild parent pids rest (idx + 1) acc := by
  obtain ⟨bumps, counts, st⟩ := acc
  simp [prepIterGo, h]

/-! ### Resolution of the flat heaps -/

theorem lookup_atomNodesFrom (l : List Atom) : ∀ (b m : Nat) (a : Atom),
    l[m]? = some a → List.lookup (b + m) (atomNodesFrom l b) = some (Node.atom a) := by
  induction l with
  | nil => intro b m a h; simp at h
  | cons x xs ih =>
    intro b m a h
    cases m with
    | zero =>
      simp only [List.getElem?_cons_zero, Option.some.injEq] at h
      subst h
      simp [atomNodesFrom, List.lookup]
    | succ m =>
      simp only [List.getElem?_cons_succ] at h
      have hne : (b + (m + 1) == b) = false := by
        simp only [beq_eq_false_iff_ne]; omega
      have harith : b + (m + 1) = (b + 1) + m := by omega
      simp only [atomNodesFrom, List.lookup, hne]
      rw [harith]
      exact ih (b + 1) m a h

theorem heapGet_mkListHeap {l : List Atom} {m : Nat} {a : Atom} (h : l[m]? = some a) :
    heapGet (mkListHeap l) (1 + m) = .atom a := by
  have hne : ((1 + m : Nat) == 0) = false := by
    simp only [beq_eq_false_iff_ne]; omega
  simp only [heapGet, mkListHeap, List.lookup, hne]
  rw [lookup_atomNodesFrom l 1 m a h]
  rfl

theorem heapGet_mkListHeap_root (l : List Atom) :
    heapGet (mkListHeap l) 0 = .listN (listIdsFrom l 1) := rfl

theorem resolves_listIds (heap : Heap) : ∀ (l : List Atom) (b : Nat),
    0 < b →
    (∀ m a, l[m]? = some a → heapGet heap (b + m) = .atom a) →
    resolvesAtomsB heap [0] (listIdsFrom l b) l = true := by
  intro l
  induction l with
  | nil => intro b _ _; simp [listIdsFrom, resolvesAtomsB]
  | cons a as ih =>
    intro b hb hres
    have h0 : heapGet heap b = .atom a := by
      have := hres 0 a (by simp)
      simpa using this
    have hb0 : (b ∈ ([0] : List Nat)) = False := by
      simp; omega
    simp only [listIdsFrom, resolvesAtomsB, Bool.and_eq_true, beq_iff_eq]
    refine ⟨⟨h0, by simp; omega⟩, ?_⟩
    exact ih (b + 1) (by omega) (fun m x hx => by
      have := hres (m + 1) x (by simpa using hx)
      have harith : b + (m + 1) = (b + 1) + m := by omega
      rwa [harith] at this)

theorem resolves_mkListHeap (l : List Atom) :
    resolvesAtomsB (mkListHeap l) [0] (listIdsFrom l 1) l = true :=
  resolves_listIds _ l 1 (by omega) (fun m a h => heapGet_mkListHeap h)

theorem lookup_dictAtomNodesFrom (l : List (Atom × Atom)) : ∀ (b m : Nat) (kv : Atom × Atom),
    l[m]? = some kv →
    List.lookup (b + m) (dictAtomNodesFrom l b) = some (Node.atom kv.snd) := by
  induction l with
  | nil => intro b m kv h; simp at h
  | cons x xs ih =>
    intro b m kv h
    obtain ⟨k, v⟩ := x
    cases m with
    | zero =>
      simp only [List.getElem?_cons_zero, Option.some.injEq] at h
      subst h
      simp [dictAtomNodesFrom, List.lookup]
    | succ m =>
      simp only [List.getElem?_cons_succ] at h
      have hne : (b + (m + 1) == b) = false := by
        simp only [beq_eq_false_iff_ne]; omega
      have harith : b + (m + 1) = (b + 1) + m := by omega
      simp only [dictAtomNodesFrom, List.lookup, hne]
      rw [harith]
      exact ih (b + 1) m kv h

theorem heapGet_mkDictHeap {l : List (Atom × Atom)} {m : Nat} {kv : Atom × Atom}
    (h : l[m]? = some kv) : heapGet (mkDictHeap l) (1 + m) = .atom kv.snd := by
  have hne : ((1 + m : Nat) == 0) = false := by
    simp only [beq_eq_false_iff_ne]; omega
  simp only [heapGet, mkDictHeap, List.lookup, hne]
  rw [lookup_dictAtomNodesFrom l 1 m kv h]
  rfl

theorem heapGet_mkDictHeap_root (l : List (Atom × Atom)) :
    heapGet (mkDictHeap l) 0 = .dictN (dictEntriesFrom l 1) := rfl

theorem resolves_dictEntries (heap : Heap) : ∀ (l : List (Atom × Atom)) (b : Nat),
    0 < b →
    (∀ m kv, l[m]? = some kv → heapGet heap (b + m) = .atom kv.snd) →
    resolvesDictB heap [0] (dictEntriesFrom l b) l = true := by
  intro l
  induction l with
  | nil => intro b _ _; simp [dictEntriesFrom, resolvesDictB]
  | cons kv rest ih =>
    intro b hb hres
    obtain ⟨k, v⟩ := kv
    have h0 : heapGet heap b = .atom v := by
      have := hres 0 (k, v) (by simp)
      simpa using this
    simp only [dictEntriesFrom, resolvesDictB, Bool.and_eq_true, beq_iff_eq]
    refine ⟨⟨⟨trivial, h0⟩, by simp; omega⟩, ?_⟩
    exact ih (b + 1) (by omega) (fun m x hx => by
      have := hres (m + 1) x (by simpa using hx)
      have harith : b + (m + 1) = (b + 1) + m := by omega
      rwa [harith] at this)

theorem resolves_mkDictHeap (l : List (Atom × Atom)) :
    resolvesDictB (mkDictHeap l) [0] (dictEntriesFrom l 1) l = true :=
  resolves_dictEntries _ l 1 (by omega) (fun m kv h => heapGet_mkDictHeap h)

/-- `listIdsFrom` distributes over append. -/
theorem listIdsFrom_append : ∀ (l1 l2 : List Atom) (b : Nat),
    listIdsFrom (l1 ++ l2) b = listIdsFrom l1 b ++ listIdsFrom l2 (b + l1.length) := by
  intro l1
  induction l1 with
  | nil => intro l2 b; simp [listIdsFrom]
  | cons a as ih =>
    intro l2 b
    simp only [List.cons_append, listIdsFrom, List.length_cons, List.append_eq]
    rw [ih]
    have : b + 1 + as.length = b + (as.length + 1) := by omega
    rw [this]

theorem listIdsFrom_length : ∀ (l : List Atom) (b : Nat),
    (listIdsFrom l b).length = l.length := by
  intro l
  induction l with
  | nil => intro b; rfl
  | cons a as ih => intro b; simp [listIdsFrom, ih]

/-! ### Run-level assembly for flat containers -/

/-- The string `prepare_string_for_hashing` produces for a text string. -/
def cleanStr (cfg : DHConfig) (s : String) : String :=
  let s1 := if cfg.ignoreStringTypeChanges then s else keyToValStr "str" s
  if cfg.ignoreStringCase then s1.toLower else s1

theorem prepareString_txt (cfg : DHConfig) (s : String) :
    prepareStringForHashing (.txt s) cfg.ignoreStringTypeChanges cfg.ignoreStringCase
      none false = .ok (cleanStr cfg s) := rfl

/-- The digest `dhFinish` computes for a composite's canonical string. -/
def finishApplied (cfg : DHConfig) (s : String) : String :=
  if cfg.applyHash then cfg.hasher (cleanStr cfg s) else s

theorem applyHasher_false (cfg : DHConfig) (s : String) :
    applyHasher cfg false s = .ok (finishApplied cfg s) := by
  unfold applyHasher finishApplied
  by_cases h : cfg.applyHash = true
  · rw [if_pos h, if_pos h]
    simp only [Bool.false_eq_true, if_false]
    rw [prepareString_txt]
  · rw [if_neg h, if_neg h]

theorem dhFinish_strRes (cfg : DHConfig) (heap : Heap) (i : Nat) (s : String)
    (cnt : Nat) (st : DHState) (k : RKey) (hk : (valueKeyOf heap i).getD (.byId i) = k) :
    dhFinish cfg heap i (.strRes s) cnt st =
      .ok ((.strRes (finishApplied cfg s), cnt),
           ⟨regStore st.hashes k (.he (.strRes (finishApplied cfg s)) cnt),
            st.trace ++ [k]⟩) := by
  unfold dhFinish
  dsimp only
  rw [applyHasher_false]
  dsimp only
  rw [hk]

theorem valueKeyOf_mkListHeap (l : List Atom) : valueKeyOf (mkListHeap l) 0 = none := by
  simp [valueKeyOf, heapGet_mkListHeap_root]

theorem valueKeyOf_mkDictHeap (l : List (Atom × Atom)) :
    valueKeyOf (mkDictHeap l) 0 = none := by
  simp [valueKeyOf, heapGet_mkDictHeap_root]

theorem dhHash_flatList_core (cfg : DHConfig) (l : List Atom) (f : Nat)
    (hskiproot : skipThis cfg (.listN (listIdsFrom l 1)) "root" = false)
    (bumps : List (HRes × Nat)) (counts : Nat) (st1 : DHState)
    (hloop : prepIterGo cfg (mkListHeap l)
        (fun j path pids' s => dhHash cfg (mkListHeap l) (Nat.succ f) j path pids' s)
        "root" [0] (listIdsFrom l 1) 0 ([], 1, initState []) = .ok (bumps, counts, st1)) :
    dhHash cfg (mkListHeap l) (Nat.succ (Nat.succ f)) 0 "root" [0] (initState []) =
      .ok ((.strRes (finishApplied cfg (iterResultString cfg "list" bumps)), counts),
           ⟨regStore st1.hashes (.byId 0)
              (.he (.strRes (finishApplied cfg (iterResultString cfg "list" bumps))) counts),
            st1.trace ++ [.byId 0]⟩) := by
  rw [dhHash, heapGet_mkListHeap_root]
  dsimp only
  rw [valueKeyOf_mkListHeap]
  dsimp only
  rw [if_neg (by simp [hskiproot])]
  rw [hloop]
  dsimp only
  exact dhFinish_strRes cfg (mkListHeap l) 0 _ counts st1 (.byId 0)
    (by rw [valueKeyOf_mkListHeap]; rfl)

theorem dhHash_flatDict_core (cfg : DHConfig) (l : List (Atom × Atom)) (f : Nat)
    (hskiproot : skipThis cfg (.dictN (dictEntriesFrom l 1)) "root" = false)
    (frags : List String) (counts : Nat) (st1 : DHState)
    (hloop : prepDictGo cfg (mkDictHeap l)
        (fun j path pids' s => dhHash cfg (mkDictHeap l) (Nat.succ f) j path pids' s)
        false "root" [0] (dictEntriesFrom l 1) ([], 1, initState []) =
        .ok (frags, counts, st1)) :
    dhHash cfg (mkDictHeap l) (Nat.succ (Nat.succ f)) 0 "root" [0] (initState []) =
      .ok ((.strRes (finishApplied cfg (dictResultString "dict" frags)), counts),
           ⟨regStore st1.hashes (.byId 0)
              (.he (.strRes (finishApplied cfg (dictResultString "dict" frags))) counts),
            st1.trace ++ [.byId 0]⟩) := by
  rw [dhHash, heapGet_mkDictHeap_root]
  dsimp only
  rw [valueKeyOf_mkDictHeap]
  dsimp only
  rw [if_neg (by simp [hskiproot])]
  rw [hloop]
  dsimp only
  exact dhFinish_strRes cfg (mkDictHeap l) 0 _ counts st1 (.byId 0)
    (by rw [valueKeyOf_mkDictHeap]; rfl)

theorem deepHashDigest_eq (cfg : DHConfig) (heap : Heap) (root : Nat)
    (rc : HRes × Nat) (st' : DHState)
    (h : dhHash cfg heap (defaultFuel heap) root "root" [root] (initState []) =
      .ok (rc, st')) :
    deepHashDigest cfg heap root = .ok rc.fst := by
  unfold deepHashDigest deepHashRun
  rw [h]
  dsimp only
  by_cases hu : (regUnprocessed st'.hashes).isEmpty = true
  · rw [if_pos hu]
  · rw [if_neg hu]

/-! ### Repetition counting: key lists of the bump fold -/

theorem bumpCount_keys (bumps : List (HRes × Nat)) (h : HRes) :
    (bumpCount bumps h).map Prod.fst =
      if h ∈ bumps.map Prod.fst then bumps.map Prod.fst
      else bumps.map Prod.fst ++ [h] := by
  induction bumps with
  | nil => simp [bumpCount]
  | cons p rest ih =>
    obtain ⟨k, c⟩ := p
    by_cases hk : k = h
    · subst hk
      simp [bumpCount]
    · have hk' : ¬ h = k := fun hc => hk hc.symm
      simp only [bumpCount, if_neg hk, List.map_cons, List.mem_cons]
      rw [ih]
      by_cases hmem : h ∈ rest.map Prod.fst
      · simp [hmem, hk']
      · simp [hmem, hk']

theorem foldBump_keys_mem (l : List HRes) : ∀ (bumps : List (HRes × Nat)) (x : HRes),
    x ∈ (List.foldl bumpCount bumps l).map Prod.fst ↔
      x ∈ bumps.map Prod.fst ∨ x ∈ l := by
  induction l with
  | nil => intro bumps x; simp
  | cons h rest ih =>
    intro bumps x
    simp only [List.foldl_cons]
    rw [ih]
    rw [bumpCount_keys]
    by_cases hmem : h ∈ bumps.map Prod.fst
    · rw [if_pos hmem]
      constructor
      · rintro (hx | hx)
        · exact Or.inl hx
        · exact Or.inr (List.mem_cons_of_mem h hx)
      · rintro (hx | hx)
        · exact Or.inl hx
        · rcases List.mem_cons.1 hx with rfl | hx
          · exact Or.inl hmem
          · exact Or.inr hx
    · rw [if_neg hmem]
      simp only [List.mem_append, List.mem_singleton, List.mem_cons]
      tauto

theorem foldBump_keys_nodup (l : List HRes) : ∀ (bumps : List (HRes × Nat)),
    (bumps.map Prod.fst).Nodup → ((List.foldl bumpCount bumps l).map Prod.fst).Nodup := by
  induction l with
  | nil => intro bumps h; simpa using h
  | cons h rest ih =>
    intro bumps hnd
    simp only [List.foldl_cons]
    refine ih (bumpCount bumps h) ?_
    rw [bumpCount_keys]
    by_cases hmem : h ∈ bumps.map Prod.fst
    · rwa [if_pos hmem]
    · rw [if_neg hmem]
      refine List.nodup_append.2 ⟨hnd, List.nodup_singleton h, fun x hx hx' => ?_⟩
      simp only [List.mem_singleton] at hx'
      subst hx'
      exact hmem hx

theorem foldBump_keys_perm {l1 l2 : List HRes} (hmem : ∀ x, x ∈ l1 ↔ x ∈ l2) :
    List.Perm ((List.foldl bumpCount [] l1).map Prod.fst)
      ((List.foldl bumpCount [] l2).map Prod.fst) := by
  refine (List.perm_ext_iff_of_nodup (foldBump_keys_nodup l1 [] (by simp))
    (foldBump_keys_nodup l2 [] (by simp))).2 ?_
  intro x
  rw [foldBump_keys_mem, foldBump_keys_mem]
  simp [hmem x]

/-- Order- and repetition-insensitive iterable canonicalization depends only
on the set of element hashes. -/
theorem iterResultString_perm (cfg : DHConfig) (typeStr : String)
    (hrep : cfg.ignoreRepetition = true) (hord : cfg.ignoreListOrder = true)
    (b1 b2 : List (HRes × Nat))
    (hperm : List.Perm (b1.map Prod.fst) (b2.map Prod.fst)) :
    iterResultString cfg typeStr b1 = iterResultString cfg typeStr b2 := by
  unfold iterResultString
  rw [hrep, hord]
  simp only [if_true]
  have h1 : b1.map (fun p => hresFormat p.fst) = (b1.map Prod.fst).map hresFormat := by
    simp [List.map_map]
  have h2 : b2.map (fun p => hresFormat p.fst) = (b2.map Prod.fst).map hresFormat := by
    simp [List.map_map]
  rw [h1, h2, pySort_eq_of_perm (hperm.map hresFormat)]

/-! ### Scalar hashability facts -/

theorem atomOk_int (cfg : DHConfig) (n : Int) : atomOk cfg (.aInt n) = true := by
  unfold atomOk atomPure atomCanonical
  dsimp only
  rw [applyHasher_false]

theorem atomOk_none (cfg : DHConfig) : atomOk cfg .aNone = true := by
  unfold atomOk atomPure atomCanonical
  dsimp only
  rw [applyHasher_false]

theorem noFilter_mkCfg (hasher : String → String) : NoFilter (mkCfg hasher) :=
  ⟨rfl, rfl, rfl, rfl, rfl⟩

theorem atomNodesFrom_length : ∀ (l : List Atom) (b : Nat),
    (atomNodesFrom l b).length = l.length := by
  intro l
  induction l with
  | nil => intro b; rfl
  | cons a as ih => intro b; simp [atomNodesFrom, ih]

theorem dictAtomNodesFrom_length : ∀ (l : List (Atom × Atom)) (b : Nat),
    (dictAtomNodesFrom l b).length = l.length := by
  intro l
  induction l with
  | nil => intro b; rfl
  | cons kv rest ih =>
    intro b
    obtain ⟨k, v⟩ := kv
    simp [dictAtomNodesFrom, ih]

theorem defaultFuel_mkListHeap (l : List Atom) :
    defaultFuel (mkListHeap l) = Nat.succ (Nat.succ (l.length + 1)) := by
  simp only [defaultFuel, mkListHeap, List.length_cons, atomNodesFrom_length]

theorem defaultFuel_mkDictHeap (l : List (Atom × Atom)) :
    defaultFuel (mkDictHeap l) = Nat.succ (Nat.succ (l.length + 1)) := by
  simp only [defaultFuel, mkDictHeap, List.length_cons, dictAtomNodesFrom_length]

/-! ### The claims -/

/-- C1: Key-order invariance.  For every flat mapping and every reordering of
its entries, hashing the two mappings under the same configuration yields
identical results — identical canonical strings when digesting is disabled
(`applyFlag = false`) and identical digests for every hasher when enabled —
because `_prep_dict` sorts the `"<keyHash>:<valueHash>"` fragments
lexicographically before joining them with `;`. -/
theorem claim_C1 (hasher : String → String) (applyFlag : Bool)
    (l1 l2 : List (Atom × Atom)) (hperm : List.Perm l1 l2)
    (hok : l1.all (fun kv =>
        atomOk { mkCfg hasher with applyHash := applyFlag } kv.fst &&
        atomOk { mkCfg hasher with applyHash := applyFlag } kv.snd) = true) :
    deepHashDigest { mkCfg hasher with applyHash := applyFlag } (mkDictHeap l1) 0 =
      deepHashDigest { mkCfg hasher with applyHash := applyFlag } (mkDictHeap l2) 0 := by
  have hnf : NoFilter { mkCfg hasher with applyHash := applyFlag } :=
    ⟨rfl, rfl, rfl, rfl, rfl⟩
  have hok2 : l2.all (fun kv =>
      atomOk { mkCfg hasher with applyHash := applyFlag } kv.fst &&
      atomOk { mkCfg hasher with applyHash := applyFlag } kv.snd) = true :=
    List.all_eq_true.2 (fun x hx =>
      List.all_eq_true.1 hok x (hperm.mem_iff.2 hx))
  obtain ⟨st1, hloop1, _⟩ := prepDictGo_atoms { mkCfg hasher with applyHash := applyFlag }
    (mkDictHeap l1) (l1.length + 1) hnf false "root" [0] (dictEntriesFrom l1 1) l1
    [] 1 (initState []) (resolves_mkDictHeap l1) hok (atomCoherent_init _)
  obtain ⟨st2, hloop2, _⟩ := prepDictGo_atoms { mkCfg hasher with applyHash := applyFlag }
    (mkDictHeap l2) (l2.length + 1) hnf false "root" [0] (dictEntriesFrom l2 1) l2
    [] 1 (initState []) (resolves_mkDictHeap l2) hok2 (atomCoherent_init _)
  have hrun1 := dhHash_flatDict_core { mkCfg hasher with applyHash := applyFlag } l1
    (l1.length + 1) (skipThis_noFilter hnf _ _) _ _ st1 hloop1
  have hrun2 := dhHash_flatDict_core { mkCfg hasher with applyHash := applyFlag } l2
    (l2.length + 1) (skipThis_noFilter hnf _ _) _ _ st2 hloop2
  rw [← defaultFuel_mkDictHeap l1] at hrun1
  rw [← defaultFuel_mkDictHeap l2] at hrun2
  rw [deepHashDigest_eq _ _ _ _ _ hrun1, deepHashDigest_eq _ _ _ _ _ hrun2]
  have hfragperm : List.Perm
      (l1.filterMap (dictFragPure { mkCfg hasher with applyHash := applyFlag }))
      (l2.filterMap (dictFragPure { mkCfg hasher with applyHash := applyFlag })) :=
    hperm.filterMap _
  simp only [List.nil_append]
  rw [show dictResultString "dict"
        (l1.filterMap (dictFragPure { mkCfg hasher with applyHash := applyFlag })) =
      dictResultString "dict"
        (l2.filterMap (dictFragPure { mkCfg hasher with applyHash := applyFlag })) by
    unfold dictResultString
    rw [pySort_eq_of_perm hfragperm]]

/-- C6: Configurable order/repetition sensitivity.  Under the default
configuration (`ignore_list_order=true`, `ignore_repetition=true`) the lists
`[1,2,2]` and `[2,1]` produce the same digest for every hasher (repeated
element hashes collapse to one occurrence and the fragments are sorted);
with `ignore_repetition=false`, each distinct element hash is emitted tagged
as `"<hash>|<count>"`, so `[1,1]` and `[1]` produce different digests for
every injective hasher. -/
theorem claim_C6 (hasher : String → String) :
    deepHashDigest (mkCfg hasher) (mkListHeap [.aInt 1, .aInt 2, .aInt 2]) 0 =
      deepHashDigest (mkCfg hasher) (mkListHeap [.aInt 2, .aInt 1]) 0 ∧
    (Function.Injective hasher →
      deepHashDigest { mkCfg hasher with ignoreRepetition := false }
          (mkListHeap [.aInt 1, .aInt 1]) 0 ≠
        deepHashDigest { mkCfg hasher with ignoreRepetition := false }
          (mkListHeap [.aInt 1]) 0) := by
  constructor
  · have hnf : NoFilter (mkCfg hasher) := noFilter_mkCfg hasher
    have hok1 : ([Atom.aInt 1, Atom.aInt 2, Atom.aInt 2].all (atomOk (mkCfg hasher))) = true := by
      simp [atomOk_int]
    have hok2 : ([Atom.aInt 2, Atom.aInt 1].all (atomOk (mkCfg hasher))) = true := by
      simp [atomOk_int]
    obtain ⟨st1, hloop1, _⟩ := prepIterGo_atoms (mkCfg hasher)
      (mkListHeap [.aInt 1, .aInt 2, .aInt 2]) 4 "root" [0]
      (listIdsFrom [.aInt 1, .aInt 2, .aInt 2] 1) [.aInt 1, .aInt 2, .aInt 2] 0
      [] 1 (initState []) (resolves_mkListHeap _) hok1
      (fun m a _ => skipThis_noFilter hnf _ _) (atomCoherent_init _)
    obtain ⟨st2, hloop2, _⟩ := prepIterGo_atoms (mkCfg hasher)
      (mkListHeap [.aInt 2, .aInt 1]) 3 "root" [0]
      (listIdsFrom [.aInt 2, .aInt 1] 1) [.aInt 2, .aInt 1] 0
      [] 1 (initState []) (resolves_mkListHeap _) hok2
      (fun m a _ => skipThis_noFilter hnf _ _) (atomCoherent_init _)
    have hrun1 := dhHash_flatList_core (mkCfg hasher) [.aInt 1, .aInt 2, .aInt 2] 4
      (skipThis_noFilter hnf _ _) _ _ st1 hloop1
    have hrun2 := dhHash_flatList_core (mkCfg hasher) [.aInt 2, .aInt 1] 3
      (skipThis_noFilter hnf _ _) _ _ st2 hloop2
    rw [show (4 : Nat) = [Atom.aInt 1, Atom.aInt 2, Atom.aInt 2].length + 1 from rfl,
        ← defaultFuel_mkListHeap] at hrun1
    rw [show (3 : Nat) = [Atom.aInt 2, Atom.aInt 1].length + 1 from rfl,
        ← defaultFuel_mkListHeap] at hrun2
    rw [deepHashDigest_eq _ _ _ _ _ hrun1, deepHashDigest_eq _ _ _ _ _ hrun2]
    have hmem : ∀ x : HRes,
        x ∈ ([Atom.aInt 1, Atom.aInt 2, Atom.aInt 2].map
              (fun a => HRes.strRes (atomDigest (mkCfg hasher) a))) ↔
        x ∈ ([Atom.aInt 2, Atom.aInt 1].map
              (fun a => HRes.strRes (atomDigest (mkCfg hasher) a))) := by
      intro x
      simp only [List.map_cons, List.map_nil, List.mem_cons, List.not_mem_nil, or_false]
      tauto
    have hkp := foldBump_keys_perm hmem
    rw [iterResultString_perm (mkCfg hasher) "list" rfl rfl _ _ hkp]
  · intro hinj hEq
    have hnf : NoFilter { mkCfg hasher with ignoreRepetition := false } :=
      ⟨rfl, rfl, rfl, rfl, rfl⟩
    have hok1 : ([Atom.aInt 1, Atom.aInt 1].all
        (atomOk { mkCfg hasher with ignoreRepetition := false })) = true := by
      simp [atomOk_int]
    have hok2 : ([Atom.aInt 1].all
        (atomOk { mkCfg hasher with ignoreRepetition := false })) = true := by
      simp [atomOk_int]
    obtain ⟨st1, hloop1, _⟩ := prepIterGo_atoms { mkCfg hasher with ignoreRepetition := false }
      (mkListHeap [.aInt 1, .aInt 1]) 3 "root" [0]
      (listIdsFrom [.aInt 1, .aInt 1] 1) [.aInt 1, .aInt 1] 0
      [] 1 (initState []) (resolves_mkListHeap _) hok1
      (fun m a _ => skipThis_noFilter hnf _ _) (atomCoherent_init _)
    obtain ⟨st2, hloop2, _⟩ := prepIterGo_atoms { mkCfg hasher with ignoreRepetition := false }
      (mkListHeap [.aInt 1]) 2 "root" [0]
      (listIdsFrom [.aInt 1] 1) [.aInt 1] 0
      [] 1 (initState []) (resolves_mkListHeap _) hok2
      (fun m a _ => skipThis_noFilter hnf _ _) (atomCoherent_init _)
    have hrun1 := dhHash_flatList_core { mkCfg hasher with ignoreRepetition := false }
      [.aInt 1, .aInt 1] 3 (skipThis_noFilter hnf _ _) _ _ st1 hloop1
    have hrun2 := dhHash_flatList_core { mkCfg hasher with ignoreRepetition := false }
      [.aInt 1] 2 (skipThis_noFilter hnf _ _) _ _ st2 hloop2
    rw [show (3 : Nat) = [Atom.aInt 1, Atom.aInt 1].length + 1 from rfl,
        ← defaultFuel_mkListHeap] at hrun1
    rw [show (2 : Nat) = [Atom.aInt 1].length + 1 from rfl,
        ← defaultFuel_mkListHeap] at hrun2
    rw [deepHashDigest_eq _ _ _ _ _ hrun1, deepHashDigest_eq _ _ _ _ _ hrun2] at hEq
    have hbump : List.foldl bumpCount []
        ([Atom.aInt 1, Atom.aInt 1].map (fun a =>
          HRes.strRes (atomDigest { mkCfg hasher with ignoreRepetition := false } a))) =
        [(HRes.strRes (atomDigest { mkCfg hasher with ignoreRepetition := false }
            (.aInt 1)), 2)] := by
      simp [bumpCount]
    have hbump2 : List.foldl bumpCount []
        ([Atom.aInt 1].map (fun a =>
          HRes.strRes (atomDigest { mkCfg hasher with ignoreRepetition := false } a))) =
        [(HRes.strRes (atomDigest { mkCfg hasher with ignoreRepetition := false }
            (.aInt 1)), 1)] := by
      simp [bumpCount]
    rw [hbump, hbump2] at hEq
    simp only [Outcome.ok.injEq, HRes.strRes.injEq] at hEq
    have h1 : finishApplied { mkCfg hasher with ignoreRepetition := false }
        (iterResultString { mkCfg hasher with ignoreRepetition := false } "list"
          [(HRes.strRes (atomDigest { mkCfg hasher with ignoreRepetition := false }
              (.aInt 1)), 2)]) =
        hasher ("str" ++ ":" ++ ("list" ++ ":" ++
          (atomDigest { mkCfg hasher with ignoreRepetition := false } (.aInt 1) ++
            "|" ++ Nat.repr 2))) := rfl
    have h2 : finishApplied { mkCfg hasher with ignoreRepetition := false }
        (iterResultString { mkCfg hasher with ignoreRepetition := false } "list"
          [(HRes.strRes (atomDigest { mkCfg hasher with ignoreRepetition := false }
              (.aInt 1)), 1)]) =
        hasher ("str" ++ ":" ++ ("list" ++ ":" ++
          (atomDigest { mkCfg hasher with ignoreRepetition := false } (.aInt 1) ++
            "|" ++ Nat.repr 1))) := rfl
    rw [h1, h2] at hEq
    have hd := congrArg String.data (hinj hEq)
    simp only [String.data_append, List.append_assoc,
               List.append_cancel_left_eq] at hd
    exact absurd hd (by decide)

/-- C1 witness: the spec's example `{"a":1,"b":2}` vs `{"b":2,"a":1}` under
the identity hasher with digesting enabled. -/
theorem claim_C1_witness :
    deepHashDigest { mkCfg (fun s => s) with applyHash := true }
        (mkDictHeap [(.aStr "a", .aInt 1), (.aStr "b", .aInt 2)]) 0 =
      deepHashDigest { mkCfg (fun s => s) with applyHash := true }
        (mkDictHeap [(.aStr "b", .aInt 2), (.aStr "a", .aInt 1)]) 0 :=
  claim_C1 (fun s => s) true
    [(.aStr "a", .aInt 1), (.aStr "b", .aInt 2)]
    [(.aStr "b", .aInt 2), (.aStr "a", .aInt 1)]
    (by decide) (by decide)

/-- C6 witness: both halves at the identity hasher (which is injective). -/
theorem claim_C6_witness :
    (deepHashDigest (mkCfg (fun s => s)) (mkListHeap [.aInt 1, .aInt 2, .aInt 2]) 0 =
      deepHashDigest (mkCfg (fun s => s)) (mkListHeap [.aInt 2, .aInt 1]) 0) ∧
    (deepHashDigest { mkCfg (fun s => s) with ignoreRepetition := false }
        (mkListHeap [.aInt 1, .aInt 1]) 0 ≠
      deepHashDigest { mkCfg (fun s => s) with ignoreRepetition := false }
        (mkListHeap [.aInt 1]) 0) :=
  ⟨(claim_C6 (fun s => s)).1, (claim_C6 (fun s => s)).2 (fun _ _ h => h)⟩

/-- C3 (amended): an exact exclude-path match on the parent excludes the
value regardless of the regex, excluded-type and callback filter options, and
regardless of the include-path option whenever the include set is
unconfigured, the parent is the root, or the parent is itself exactly
included — and the excluded, not-yet-memoized value contributes nothing:
`_hash` returns the null hash with item count 0 and leaves the registry
untouched.  (Without the carve-outs the claim is false: an include-path
*prefix* match overrides the exclusion — see the counterexample.) -/
theorem claim_C3 (cfg : DHConfig) (heap : Heap) (fuel i : Nat) (parent : String)
    (pids : List Nat) (st : DHState)
    (hmem : cfg.excludePaths.contains parent = true)
    (hinc : cfg.includePaths = [] ∨ parent = "root" ∨
      cfg.includePaths.contains parent = true)
    (hfuel : 0 < fuel)
    (hprobe : ∀ k, valueKeyOf heap i = some k → regEntry st.hashes k = none) :
    skipThis cfg (heapGet heap i) parent = true ∧
    dhHash cfg heap fuel i parent pids st = .ok ((.nil, 0), st) := by
  have hne : cfg.excludePaths.isEmpty = false := by
    cases h : cfg.excludePaths with
    | nil => rw [h] at hmem; simp at hmem
    | cons a l => simp [h]
  have hskip : ∀ n : Node, skipThis cfg n parent = true := by
    intro n
    unfold skipThis
    have hmem' : parent ∈ cfg.excludePaths := by simpa using hmem
    have hs0 : (!cfg.excludePaths.isEmpty && cfg.excludePaths.contains parent) = true := by
      simp [hne, hmem']
    by_cases hcond : (!cfg.includePaths.isEmpty && parent != "root") = true
    · rw [if_pos hcond]
      rcases hinc with h1 | h1 | h1
      · simp [h1] at hcond
      · simp [h1] at hcond
      · rw [if_pos h1]
        exact hs0
    · rw [if_neg hcond]
      by_cases h2 : (!cfg.excludeRegexPaths.isEmpty &&
          cfg.excludeRegexPaths.any (fun rx => rx parent)) = true
      · rw [if_pos h2]
      · rw [if_neg h2]
        by_cases h3 : (!cfg.excludeTypes.isEmpty &&
            cfg.excludeTypes.contains (nodeTypeName n)) = true
        · rw [if_pos h3]
        · rw [if_neg h3]
          by_cases h4 : (match cfg.excludeObjCallback with
                         | some cb => cb n parent
                         | none => false) = true
          · rw [if_pos h4]
          · rw [if_neg h4]
            exact hs0
  refine ⟨hskip _, ?_⟩
  cases fuel with
  | zero => omega
  | succ f =>
    cases hnode : heapGet heap i with
    | atom a =>
      rw [dhHash_atom cfg heap f hnode]
      unfold hashAtomCore
      have hvk : valueKeyOf heap i = some (atomRKey a) := by
        unfold valueKeyOf
        rw [hnode]
      rw [hprobe (atomRKey a) hvk]
      simp [hskip]
    | listN es =>
      rw [dhHash, hnode]
      dsimp only
      have hvk : valueKeyOf heap i = none := by unfold valueKeyOf; rw [hnode]
      rw [hvk]
      simp [hskip]
    | tupleN es =>
      rw [dhHash, hnode]
      dsimp only
      cases hvk : valueKeyOf heap i with
      | some k =>
        dsimp only
        rw [hprobe k hvk]
        simp [hskip]
      | none =>
        simp [hskip]
    | dictN entries =>
      rw [dhHash, hnode]
      dsimp only
      have hvk : valueKeyOf heap i = none := by unfold valueKeyOf; rw [hnode]
      rw [hvk]
      simp [hskip]
    | ntupleN sh =>
      rw [dhHash, hnode]
      dsimp only
      have hvk : valueKeyOf heap i = some (.byId i) := by
        unfold valueKeyOf; rw [hnode]
      rw [hvk]
      dsimp only
      rw [hprobe _ hvk]
      simp [hskip]
    | objN sh =>
      rw [dhHash, hnode]
      dsimp only
      have hvk : valueKeyOf heap i = some (.byId i) := by
        unfold valueKeyOf; rw [hnode]
      rw [hvk]
      dsimp only
      rw [hprobe _ hvk]
      simp [hskip]

/-- The C3 counterexample configuration: an exact exclude path together with
an include path of which it is a proper prefix extension. -/
def c3Cfg : DHConfig :=
  { mkCfg (fun s => s) with
      excludePaths := ["root['a']['b']"]
      includePaths := ["root['a']"] }

/-- C3 counterexample: the parent path `root['a']['b']` is an exact member of
the configured exclude-path set, yet `_skip_this` does *not* exclude the
value — the include-path prefix branch (lines 347-353) overrides the
exclusion set by the exclude-path branch (lines 345-346).  This refutes the
claim that exact exclude-path exclusion holds regardless of which other
filter options are configured. -/
theorem claim_C3_counterexample :
    c3Cfg.excludePaths.contains "root['a']['b']" = true ∧
    skipThis c3Cfg (.atom (.aInt 5)) "root['a']['b']" = false := by
  constructor
  · decide
  · decide

/-- C3 witness: a concrete exclusion (exclude path `root['x']`, no include
paths, with a regex, an excluded type and a callback also configured) of an
integer scalar in a fresh registry. -/
theorem claim_C3_witness :
    skipThis
      { mkCfg (fun s => s) with
          excludePaths := ["root['x']"]
          excludeRegexPaths := [fun _ => false]
          excludeTypes := ["str"]
          excludeObjCallback := some (fun _ _ => false) }
      (heapGet [(7, Node.atom (.aInt 3))] 7) "root['x']" = true ∧
    dhHash
      { mkCfg (fun s => s) with
          excludePaths := ["root['x']"]
          excludeRegexPaths := [fun _ => false]
          excludeTypes := ["str"]
          excludeObjCallback := some (fun _ _ => false) }
      [(7, Node.atom (.aInt 3))] 1 7 "root['x']" [7] (initState []) =
      .ok ((.nil, 0), initState []) :=
  claim_C3 _ [(7, Node.atom (.aInt 3))] 1 7 "root['x']" [7] (initState [])
    (by decide) (Or.inl rfl) (by omega)
    (fun k hk => by
      have : k = atomRKey (.aInt 3) := by
        have hv : valueKeyOf [(7, Node.atom (Atom.aInt 3))] 7 =
            some (atomRKey (.aInt 3)) := by decide
        rw [hv] at hk
        exact (Option.some_injective _ hk).symm
      subst this
      decide)

/-- C9: Lookup API.  For a value never registered (neither under itself nor
under its identity), `_getitem` fails with the distinct "not one of the
hashed items" `KeyError` while `get_key` returns the supplied default; for a
registered value, lookup returns the stored digest (`extract_index=0`), the
stored item count (`extract_index=1`), or both (`extract_index=None`),
whether the entry sits under the value key or under the identity fallback. -/
theorem claim_C9 (hashes : List (RKey × RVal)) (heap : Heap) (i : Nat)
    (dflt : GetRes) :
    ((∀ k, valueKeyOf heap i = some k → regLookup hashes k = none) →
      regLookup hashes (.byId i) = none →
      dhGetItem hashes heap i .hashIx =
        .error (hashLookupErrMsg (nodeStr heap i)) ∧
      dhGetKey hashes heap i .hashIx dflt = dflt) ∧
    (∀ k r c, valueKeyOf heap i = some k → regLookup hashes k = some (.he r c) →
      dhGetItem hashes heap i .hashIx = .ok (.hashOnly r) ∧
      dhGetItem hashes heap i .countIx = .ok (.countOnly c) ∧
      dhGetItem hashes heap i .bothIx = .ok (.pair r c)) ∧
    (∀ r c, (∀ k, valueKeyOf heap i = some k → regLookup hashes k = none) →
      regLookup hashes (.byId i) = some (.he r c) →
      dhGetItem hashes heap i .hashIx = .ok (.hashOnly r) ∧
      dhGetItem hashes heap i .countIx = .ok (.countOnly c) ∧
      dhGetItem hashes heap i .bothIx = .ok (.pair r c)) := by
  refine ⟨?_, ?_, ?_⟩
  · intro hval hid
    have hitem : dhGetItem hashes heap i .hashIx =
        .error (hashLookupErrMsg (nodeStr heap i)) := by
      unfold dhGetItem
      cases hvk : valueKeyOf heap i with
      | some k =>
        dsimp only
        rw [hval k hvk, hid]
      | none =>
        dsimp only
        rw [hid]
    refine ⟨hitem, ?_⟩
    unfold dhGetKey
    rw [hitem]
  · intro k r c hvk hreg
    have hfound : dhGetItem hashes heap i = fun ex => .ok (rvalExtract (.he r c) ex) := by
      funext ex
      unfold dhGetItem
      rw [hvk]
      dsimp only
      rw [hreg]
    exact ⟨by rw [hfound]; rfl, by rw [hfound]; rfl, by rw [hfound]; rfl⟩
  · intro r c hval hid
    have hfound : dhGetItem hashes heap i = fun ex => .ok (rvalExtract (.he r c) ex) := by
      funext ex
      unfold dhGetItem
      cases hvk : valueKeyOf heap i with
      | some k =>
        dsimp only
        rw [hval k hvk, hid]
      | none =>
        dsimp only
        rw [hid]
    exact ⟨by rw [hfound]; rfl, by rw [hfound]; rfl, by rw [hfound]; rfl⟩

/-- C9 witness: a registry holding the value-keyed entry for the int `5`
(digest `"h"`, count 3) and an identity-keyed entry for a list at id 2;
id 9 is dangling (never registered). -/
theorem claim_C9_witness :
    (dhGetItem [(RKey.byAtom (.aInt 5), RVal.he (.strRes "h") 3)]
        [(1, Node.atom (.aInt 5)), (2, Node.listN [])] 9 .hashIx =
      .error (hashLookupErrMsg "None") ∧
     dhGetKey [(RKey.byAtom (.aInt 5), RVal.he (.strRes "h") 3)]
        [(1, Node.atom (.aInt 5)), (2, Node.listN [])] 9 .hashIx
        (.hashOnly .nil) = .hashOnly .nil) ∧
    (dhGetItem [(RKey.byAtom (.aInt 5), RVal.he (.strRes "h") 3)]
        [(1, Node.atom (.aInt 5)), (2, Node.listN [])] 1 .hashIx =
      .ok (.hashOnly (.strRes "h")) ∧
     dhGetItem [(RKey.byAtom (.aInt 5), RVal.he (.strRes "h") 3)]
        [(1, Node.atom (.aInt 5)), (2, Node.listN [])] 1 .countIx =
      .ok (.countOnly 3) ∧
     dhGetItem [(RKey.byAtom (.aInt 5), RVal.he (.strRes "h") 3)]
        [(1, Node.atom (.aInt 5)), (2, Node.listN [])] 1 .bothIx =
      .ok (.pair (.strRes "h") 3)) ∧
    (dhGetItem [(RKey.byId 2, RVal.he (.strRes "g") 1)]
        [(1, Node.atom (.aInt 5)), (2, Node.listN [])] 2 .hashIx =
      .ok (.hashOnly (.strRes "g")) ∧
     dhGetItem [(RKey.byId 2, RVal.he (.strRes "g") 1)]
        [(1, Node.atom (.aInt 5)), (2, Node.listN [])] 2 .countIx =
      .ok (.countOnly 1) ∧
     dhGetItem [(RKey.byId 2, RVal.he (.strRes "g") 1)]
        [(1, Node.atom (.aInt 5)), (2, Node.listN [])] 2 .bothIx =
      .ok (.pair (.strRes "g") 1)) := by
  refine ⟨?_, ?_, ?_⟩
  · exact (claim_C9 [(RKey.byAtom (.aInt 5), RVal.he (.strRes "h") 3)]
      [(1, Node.atom (.aInt 5)), (2, Node.listN [])] 9 (.hashOnly .nil)).1
      (fun k hk => by
        have : k = atomRKey .aNone := by
          rw [show valueKeyOf [(1, Node.atom (.aInt 5)), (2, Node.listN [])] 9 =
              some (atomRKey .aNone) from rfl] at hk
          exact (Option.some_injective _ hk).symm
        subst this
        decide)
      (by decide)
  · exact (claim_C9 [(RKey.byAtom (.aInt 5), RVal.he (.strRes "h") 3)]
      [(1, Node.atom (.aInt 5)), (2, Node.listN [])] 1 (.hashOnly .nil)).2.1
      (RKey.byAtom (.aInt 5)) (.strRes "h") 3 rfl (by decide)
  · exact (claim_C9 [(RKey.byId 2, RVal.he (.strRes "g") 1)]
      [(1, Node.atom (.aInt 5)), (2, Node.listN [])] 2 (.hashOnly .nil)).2.2
      (.strRes "g") 1
      (fun k hk => by
        rw [show valueKeyOf [(1, Node.atom (.aInt 5)), (2, Node.listN [])] 2 =
            none from rfl] at hk
        cases hk)
      (by decide)

/-- C2 (amended): memoization serves values usable as mapping keys — when
the value at heap id `i` is hashable and the registry holds an entry under
its value key, `_hash` returns that entry immediately, leaving the registry
and the ghost trace untouched.  (Values registered only under their identity
are *not* served from the registry: the line-481 lookup raises `TypeError`
before the identity key could be consulted, and the value is recomputed —
see the counterexample.) -/
theorem claim_C2 (cfg : DHConfig) (heap : Heap) (f i : Nat) (parent : String)
    (pids : List Nat) (st : DHState) (k : RKey) (r : HRes) (c : Nat)
    (hk : valueKeyOf heap i = some k)
    (hreg : regEntry st.hashes k = some (r, c)) :
    dhHash cfg heap (Nat.succ f) i parent pids st = .ok ((r, c), st) := by
  cases hnode : heapGet heap i with
  | atom a =>
    rw [dhHash_atom cfg heap f hnode]
    unfold hashAtomCore
    have : k = atomRKey a := by
      unfold valueKeyOf at hk
      rw [hnode] at hk
      exact (Option.some_injective _ hk).symm
    subst this
    rw [hreg]
  | listN es =>
    unfold valueKeyOf at hk
    rw [hnode] at hk
    cases hk
  | dictN entries =>
    unfold valueKeyOf at hk
    rw [hnode] at hk
    cases hk
  | tupleN es =>
    rw [dhHash, hnode]
    dsimp only
    rw [hk]
    dsimp only
    rw [hreg]
  | ntupleN sh =>
    rw [dhHash, hnode]
    dsimp only
    rw [hk]
    dsimp only
    rw [hreg]
  | objN sh =>
    rw [dhHash, hnode]
    dsimp only
    rw [hk]
    dsimp only
    rw [hreg]

/-- The ghost trace of a finished run (one key per full write-back). -/
def runTrace (o : Outcome ((HRes × Nat) × DHState)) : List RKey :=
  match o with
  | .ok (_, st) => st.trace
  | _ => []

/-- The heap of `[x, x]` with `x = []`: the outer list at id 0 holds the
same inner empty list (id 1) twice. -/
def c2Heap : Heap := [(0, Node.listN [1, 1]), (1, Node.listN [])]

/-- C2 counterexample: hashing `[x, x]` (`x = []`) in one fresh run performs
*two* full computations of `x` — the ghost trace, which records exactly one
key per full (non-memoized) computation's write-back at lines 543-547,
contains the identity key of `x` twice.  After the first occurrence `x`'s
HashEntry is already in the registry (under `get_id(x)`), yet the second
encounter recomputes it, because the memoization lookup `self.hashes[obj]`
raises `TypeError` for a list.  This refutes the claim that a written
HashEntry is never recomputed within the run for identity-registered
values. -/
theorem claim_C2_counterexample :
    runTrace (deepHashRun (mkCfg (fun s => s)) c2Heap [] 0 (defaultFuel c2Heap)) =
      [.byId 1, .byId 1, .byId 0] := by
  decide

/-- C2 witness: a seeded value-keyed entry for the int `7` is returned
unchanged. -/
theorem claim_C2_witness :
    dhHash (mkCfg (fun s => s)) [(1, Node.atom (.aInt 7))] 1 1 "root" [1]
      ⟨[(RKey.byAtom (.aInt 7), RVal.he (.strRes "cached") 42)], []⟩ =
      .ok (((.strRes "cached"), 42),
           ⟨[(RKey.byAtom (.aInt 7), RVal.he (.strRes "cached") 42)], []⟩) :=
  claim_C2 (mkCfg (fun s => s)) [(1, Node.atom (.aInt 7))] 0 1 "root" [1]
    ⟨[(RKey.byAtom (.aInt 7), RVal.he (.strRes "cached") 42)], []⟩
    (RKey.byAtom (.aInt 7)) (.strRes "cached") 42 rfl (by decide)

/-- Modelled from the spec (the second definition of a refinement pair, for
claim C4): "Applies, in order, the first strategy that succeeds in extracting
an attribute mapping ...: (1) named-field extraction (records), (2) direct
attribute-to-value mapping, (3) fixed-slot attribute enumeration, (4)
reflective enumeration of non-callable members."  All four probes are
chained; an inapplicable or failing probe falls through to the next. -/
def specObjExtract (isNamedtuple : Bool) (sh : ObjShape) : Option (List (Atom × Nat)) :=
  match (if isNamedtuple then sh.asdict else none) with
  | some d => some d
  | none =>
    match sh.dunderDict with
    | some d => some d
    | none =>
      match sh.slots with
      | some sl =>
        match slotsMap sl with
        | some d => some d
        | none => sh.members
      | none => sh.members

/-- The `dhFinish` step for the `unprocessed` sentinel: no digest is applied,
the `(unprocessed, count)` pair is still written back. -/
theorem dhFinish_unproc (cfg : DHConfig) (heap : Heap) (i cnt : Nat) (st : DHState)
    (k : RKey) (hk : (valueKeyOf heap i).getD (.byId i) = k) :
    dhFinish cfg heap i .unproc cnt st =
      .ok ((.unproc, cnt),
           ⟨regStore st.hashes k (.he .unproc cnt), st.trace ++ [k]⟩) := by
  unfold dhFinish
  dsimp only
  rw [hk]

/-- The C4 counterexample object: no `__dict__`, a declared but unset slot,
and a perfectly introspectable member list. -/
def c4Shape : ObjShape :=
  { className := "SlotThing"
    asdict := none
    dunderDict := none
    slots := some [(.aStr "x", none)]
    members := some [(.aStr "y", 2)] }

def c4Heap : Heap := [(1, Node.objN c4Shape), (2, Node.atom (.aInt 5))]

/-- C4 counterexample: for an object whose `__slots__` enumeration fails
(unset slot) while reflective member enumeration would succeed, the spec's
four-strategy chain extracts the member mapping, but `_prep_obj` — which
places only *one* of the two probes in its list (slots shadow `getmembers`,
lines 322-325) — extracts nothing and yields the `UNPROCESSED` sentinel with
count 0, appending the object to the unprocessed list.  This refutes the
claim that exactly the four strategies are tried in order with the first
success supplying the mapping. -/
theorem claim_C4_counterexample :
    specObjExtract false c4Shape = some [(.aStr "y", 2)] ∧
    objExtract false c4Shape = none ∧
    dhHash (mkCfg (fun s => s)) c4Heap 2 1 "root" [1] (initState []) =
      .ok ((.unproc, 0),
           ⟨[(.unprocKey, .unprocList [1]), (.byId 1, .he .unproc 0)],
            [.byId 1]⟩) := by
  refine ⟨rfl, rfl, ?_⟩
  decide

/-- Does the run produce a proper string digest? -/
def isStrResOk : Outcome HRes → Bool
  | .ok (.strRes _) => true
  | _ => false

/-- A list containing the undecomposable object and an ordinary scalar. -/
def c4SibHeap : Heap :=
  [(0, Node.listN [1, 2]), (1, Node.objN c4Shape), (2, Node.atom (.aInt 5))]

/-- C4 (amended): `_prep_obj` places at most two strategies in its chain —
named-field extraction for a named tuple else `__dict__`, then slot
enumeration when `__slots__` is declared else reflective member enumeration.
(a) When `__dict__` is missing and the declared slots fail, the value is
undecomposable no matter what the member enumeration would return;
(b) when both listed strategies fail, the value is appended to
UnprocessedList and `_hash` stores and returns the `UNPROCESSED` sentinel
with item count 0 (no abort);
(c) traversal of sibling values continues unaffected: a list holding such an
object and the scalar `5` still hashes to a digest, with the scalar's entry
registered and the object on the unprocessed list. -/
theorem claim_C4 (cfg : DHConfig) (heap : Heap) (f i : Nat) (sh : ObjShape)
    (parent : String) (pids : List Nat) (st : DHState)
    (hnode : heapGet heap i = .objN sh)
    (hprobe : regEntry st.hashes (.byId i) = none)
    (hskip : skipThis cfg (.objN sh) parent = false)
    (hfail : objExtract false sh = none) :
    (∀ (sl : List (Atom × Option Nat)) (sh' : ObjShape),
        sh'.dunderDict = none → sh'.slots = some sl → slotsMap sl = none →
        objExtract false sh' = none) ∧
    dhHash cfg heap (Nat.succ f) i parent pids st =
      .ok ((.unproc, 0),
           ⟨regStore (regAppendUnprocessed st.hashes i) (.byId i) (.he .unproc 0),
            st.trace ++ [.byId i]⟩) ∧
    (isStrResOk (deepHashDigest (mkCfg (fun s => s)) c4SibHeap 0) = true ∧
      (match deepHashRun (mkCfg (fun s => s)) c4SibHeap [] 0 (defaultFuel c4SibHeap) with
       | .ok (_, stF) => (regLookup stF.hashes (.byAtom (.aInt 5))).isSome &&
           (regUnprocessed stF.hashes == [1])
       | _ => false) = true) := by
  refine ⟨?_, ?_, by decide, by decide⟩
  · intro sl sh' hd hs hm
    unfold objExtract objStrategy1 objStrategy2
    rw [hd, hs]
    simp [hm]
  · have hvk : valueKeyOf heap i = some (.byId i) := by
      unfold valueKeyOf
      rw [hnode]
    rw [dhHash, hnode]
    dsimp only
    rw [hvk]
    dsimp only
    rw [hprobe, hskip]
    dsimp only
    rw [hfail]
    exact dhFinish_unproc cfg heap i 0
      ⟨regAppendUnprocessed st.hashes i, st.trace⟩ (.byId i) (by rw [hvk]; rfl)

/-- C4 witness: the counterexample object in a fresh registry under the
default filterless configuration. -/
theorem claim_C4_witness :
    (∀ (sl : List (Atom × Option Nat)) (sh' : ObjShape),
        sh'.dunderDict = none → sh'.slots = some sl → slotsMap sl = none →
        objExtract false sh' = none) ∧
    dhHash (mkCfg (fun s => s)) c4Heap (Nat.succ 1) 1 "root" [1] (initState []) =
      .ok ((.unproc, 0),
           ⟨regStore (regAppendUnprocessed (initState []).hashes 1) (.byId 1)
              (.he .unproc 0),
            (initState []).trace ++ [.byId 1]⟩) ∧
    (isStrResOk (deepHashDigest (mkCfg (fun s => s)) c4SibHeap 0) = true ∧
      (match deepHashRun (mkCfg (fun s => s)) c4SibHeap [] 0 (defaultFuel c4SibHeap) with
       | .ok (_, stF) => (regLookup stF.hashes (.byAtom (.aInt 5))).isSome &&
           (regUnprocessed stF.hashes == [1])
       | _ => false) = true) :=
  claim_C4 (mkCfg (fun s => s)) c4Heap 1 1 c4Shape "root" [1] (initState [])
    rfl (by decide) (by decide) rfl

/-- The C8 counterexample bytes: 4 ASCII characters, one invalid byte, then
40 more ASCII characters. -/
def c8Bytes : List Nat := [97, 98, 99, 100, 255] ++ List.replicate 40 120

/-- C8 counterexample: decoding fails at byte range `[4,5)`; the excerpt
window `[max(err.start-20,0), err.end+20)` is computed in *byte* offsets but
sliced from the best-effort-decoded *character* string, so the excerpt holds
25 characters of which only 4 precede the failure offset — 21 characters of
context follow it, refuting "at most 20 characters of context on each
side". -/
theorem claim_C8_counterexample :
    prepareStringForHashing (.bin c8Bytes) false false none false =
      .error ⟨"utf-8", c8Bytes, 4, 5,
        decodeErrorMessage c8Bytes ⟨4, 5, "invalid start byte"⟩⟩ ∧
    (decodeErrorContext c8Bytes ⟨4, 5, "invalid start byte"⟩).2.1.length = 25 ∧
    (utf8Ignore (c8Bytes.take 4)).length = 4 ∧
    20 < (decodeErrorContext c8Bytes ⟨4, 5, "invalid start byte"⟩).2.1.length -
      (utf8Ignore (c8Bytes.take 4)).length := by
  refine ⟨by decide, by decide, by decide, by decide⟩

/-- A run aborted by a byte string that no candidate encoding can decode. -/
def c8Heap : Heap := [(0, Node.listN [1]), (1, Node.atom (.aBytes [255]))]

/-- C8 (amended): when strict decoding fails under the (default) candidate
encodings with error `e`, `prepare_string_for_hashing` re-raises a
`UnicodeDecodeError` carrying the same byte range and the rebuilt message;
the excerpt is the slice of the ignore-decoded character string over the
byte-offset window `[max(e.start-20,0), min(e.end+20, len(bytes)))` — its
length is bounded by `(e.end - e.start) + 40` (not by 20 per side), with the
`'...'` prefix marker iff `20 < e.start` and the `'...'` suffix marker iff
`e.end + 20 < len(bytes)`; the error aborts the whole run (a list containing
such bytes hashes to the decode failure, not to a digest); and with
`ignore_encoding_errors=True` decoding instead succeeds best-effort with the
invalid ranges dropped. -/
theorem claim_C8 (bs : List Nat) (istc isc : Bool) (e : UErr)
    (hdec : codecDecodeStrict .utf8 bs = .error e)
    (hrange : e.errStart ≤ e.errStop) :
    prepareStringForHashing (.bin bs) istc isc none false =
      .error ⟨"utf-8", bs, e.errStart, e.errStop, decodeErrorMessage bs e⟩ ∧
    (decodeErrorContext bs e).2.1.length ≤ (e.errStop - e.errStart) + 40 ∧
    ((decodeErrorContext bs e).1 = (if 20 < e.errStart then "..." else "")) ∧
    ((decodeErrorContext bs e).2.2 =
      (if e.errStop + 20 < bs.length then "..." else "")) ∧
    (∃ s, prepareStringForHashing (.bin bs) istc isc none true = .ok s) ∧
    deepHashRun (mkCfg (fun t => t)) c8Heap [] 0 (defaultFuel c8Heap) =
      .decodeFail ⟨"utf-8", [255], 0, 1,
        decodeErrorMessage [255] ⟨0, 1, "invalid start byte"⟩⟩ := by
  refine ⟨?_, ?_, ?_, ?_, ⟨_, rfl⟩, by decide⟩
  · unfold prepareStringForHashing prepDecodeBytes
    dsimp only
    rw [show (Option.getD (none : Option (List Codec)) [Codec.utf8]) = [Codec.utf8]
        from rfl]
    rw [prepDecodeBytes.go, hdec]
    dsimp only
    rw [prepDecodeBytes.go]
    rfl
  · have hstr : ∀ l : List Char, (l.asString).length = l.length := fun l =>
      congrArg List.length (List.toList_asString l)
    unfold decodeErrorContext
    dsimp only
    rw [hstr]
    have h1 := List.length_take ((e.errStop + 20 +
        (if bs.length ≤ e.errStop + 20 then bs.length else e.errStop + 20)) -
        (e.errStop + 20)) ((utf8Ignore bs).drop (if 20 ≤ e.errStart then e.errStart - 20 else 0))
    by_cases hs : 20 ≤ e.errStart
    · rw [if_pos hs]
      by_cases hc : bs.length ≤ e.errStop + 20
      · rw [if_pos hc]
        calc (((utf8Ignore bs).drop (e.errStart - 20)).take
                (bs.length - (e.errStart - 20))).length
            ≤ bs.length - (e.errStart - 20) := by
              rw [List.length_take]; omega
          _ ≤ (e.errStop - e.errStart) + 40 := by omega
      · rw [if_neg hc]
        calc (((utf8Ignore bs).drop (e.errStart - 20)).take
                (e.errStop + 20 - (e.errStart - 20))).length
            ≤ e.errStop + 20 - (e.errStart - 20) := by
              rw [List.length_take]; omega
          _ ≤ (e.errStop - e.errStart) + 40 := by omega
    · rw [if_neg hs]
      by_cases hc : bs.length ≤ e.errStop + 20
      · rw [if_pos hc]
        calc (((utf8Ignore bs).drop 0).take (bs.length - 0)).length
            ≤ bs.length - 0 := by rw [List.length_take]; omega
          _ ≤ (e.errStop - e.errStart) + 40 := by omega
      · rw [if_neg hc]
        calc (((utf8Ignore bs).drop 0).take (e.errStop + 20 - 0)).length
            ≤ e.errStop + 20 - 0 := by rw [List.length_take]; omega
          _ ≤ (e.errStop - e.errStart) + 40 := by omega
  · unfold decodeErrorContext
    dsimp only
    by_cases hs : 20 ≤ e.errStart
    · rw [if_pos hs]
      by_cases h0 : 0 < e.errStart - 20
      · rw [if_pos h0, if_pos (by omega : 20 < e.errStart)]
      · rw [if_neg h0, if_neg (by omega : ¬ 20 < e.errStart)]
    · rw [if_neg hs]
      rw [if_neg (by omega : ¬ (0:Nat) < 0), if_neg (by omega : ¬ 20 < e.errStart)]
  · unfold decodeErrorContext
    dsimp only
    by_cases hc : bs.length ≤ e.errStop + 20
    · rw [if_pos hc, if_neg (by omega : ¬ e.errStop + 20 < bs.length)]
    · rw [if_neg hc, if_pos (by omega : e.errStop + 20 < bs.length)]

/-- C8 witness: the single invalid byte `0xff`. -/
theorem claim_C8_witness :
    prepareStringForHashing (.bin [255]) false false none false =
      .error ⟨"utf-8", [255], 0, 1,
        decodeErrorMessage [255] ⟨0, 1, "invalid start byte"⟩⟩ ∧
    (decodeErrorContext [255] ⟨0, 1, "invalid start byte"⟩).2.1.length ≤
      (1 - 0) + 40 ∧
    ((decodeErrorContext [255] ⟨0, 1, "invalid start byte"⟩).1 =
      (if 20 < (0:Nat) then "..." else "")) ∧
    ((decodeErrorContext [255] ⟨0, 1, "invalid start byte"⟩).2.2 =
      (if (1:Nat) + 20 < ([255] : List Nat).length then "..." else "")) ∧
    (∃ s, prepareStringForHashing (.bin [255]) false false none true = .ok s) ∧
    deepHashRun (mkCfg (fun t => t)) c8Heap [] 0 (defaultFuel c8Heap) =
      .decodeFail ⟨"utf-8", [255], 0, 1,
        decodeErrorMessage [255] ⟨0, 1, "invalid start byte"⟩⟩ :=
  claim_C8 [255] false false ⟨0, 1, "invalid start byte"⟩ (by decide) (by decide)

/-! ### Termination: the ancestor set bounds the recursion depth -/

def heapIds (heap : Heap) : Finset Nat := (heap.map Prod.fst).toFinset

/-- The number of heap identities not yet on the ancestor path. -/
def unvisited (heap : Heap) (pids : List Nat) : Nat :=
  (heapIds heap \ pids.toFinset).card

def Outcome.isNoFuel : Outcome α → Bool
  | .noFuel => true
  | _ => false

theorem hashAtomCore_ne_noFuel (cfg : DHConfig) (a : Atom) (parent : String)
    (st : DHState) : hashAtomCore cfg a parent st ≠ .noFuel := by
  unfold hashAtomCore
  cases regEntry st.hashes (atomRKey a) with
  | some rc => simp
  | none =>
    by_cases h : skipThis cfg (.atom a) parent = true
    · simp [h]
    · rw [if_neg h]
      cases atomCanonical cfg a with
      | error e => simp
      | ok canon =>
        cases a <;> dsimp only <;>
          first
          | (cases applyHasher cfg false canon with
             | error e => simp
             | ok res => simp)
          | (cases applyHasher cfg true canon with
             | error e => simp
             | ok res => simp)

theorem dhFinish_ne_noFuel (cfg : DHConfig) (heap : Heap) (i : Nat) (res : HRes)
    (cnt : Nat) (st : DHState) : dhFinish cfg heap i res cnt st ≠ .noFuel := by
  unfold dhFinish
  cases res with
  | nil => simp
  | unproc => simp
  | strRes s =>
    dsimp only
    cases applyHasher cfg false s with
    | error e => simp
    | ok r => simp

theorem contains_false_of_guard {pids : List Nat} {j : Nat}
    (h : (!pids.isEmpty && pids.contains j) = false) : pids.contains j = false := by
  cases pids with
  | nil => rfl
  | cons x xs => simpa using h

theorem prepDictGo_ne_noFuel (cfg : DHConfig) (heap : Heap)
    (hashChild : Nat → String → List Nat → DHState → Outcome ((HRes × Nat) × DHState))
    (printA : Bool) (parent : String) (pids : List Nat)
    (H : ∀ j path st', pids.contains j = false →
      hashChild j path (pids.insert j) st' ≠ .noFuel) :
    ∀ (entries : List (Atom × Nat)) (acc : List String × Nat × DHState),
      prepDictGo cfg heap hashChild printA parent pids entries acc ≠ .noFuel := by
  intro entries
  induction entries with
  | nil => intro acc; simp [prepDictGo]
  | cons e es ih =>
    intro acc
    obtain ⟨key, itemId⟩ := e
    obtain ⟨frags, counts, st⟩ := acc
    simp only [prepDictGo]
    by_cases hpriv : privateKeySkip cfg key = true
    · rw [if_pos hpriv]; exact ih _
    · rw [if_neg hpriv]
      cases hkey : hashAtomCore cfg key (dictKeyPath printA parent key) st with
      | decodeFail e => simp
      | noFuel => exact absurd hkey (hashAtomCore_ne_noFuel _ _ _ _)
      | ok r =>
        obtain ⟨⟨kh, n⟩, st1⟩ := r
        dsimp only
        by_cases hf : hresFalsy kh = true
        · rw [if_pos hf]; exact ih _
        · rw [if_neg hf]
          by_cases hg : (!pids.isEmpty && pids.contains itemId) = true
          · rw [if_pos hg]; exact ih _
          · rw [if_neg hg]
            by_cases hsk : skipThis cfg (heapGet heap itemId)
                (dictKeyPath printA parent key) = true
            · rw [if_pos hsk]; exact ih _
            · rw [if_neg hsk]
              cases hch : hashChild itemId (dictKeyPath printA parent key)
                  (pids.insert itemId) st1 with
              | decodeFail e => simp
              | noFuel =>
                exact absurd hch (H itemId _ st1
                  (contains_false_of_guard (by
                    cases h2 : (!pids.isEmpty && pids.contains itemId) with
                    | true => exact absurd h2 hg
                    | false => rfl)))
              | ok r2 =>
                obtain ⟨⟨ih2, c2⟩, st2⟩ := r2
                exact ih _

theorem prepIterGo_ne_noFuel (cfg : DHConfig) (heap : Heap)
    (hashChild : Nat → String → List Nat → DHState → Outcome ((HRes × Nat) × DHState))
    (parent : String) (pids : List Nat)
    (H : ∀ j path st', pids.contains j = false →
      hashChild j path (pids.insert j) st' ≠ .noFuel) :
    ∀ (items : List Nat) (idx : Nat) (acc : List (HRes × Nat) × Nat × DHState),
      prepIterGo cfg heap hashChild parent pids items idx acc ≠ .noFuel := by
  intro items
  induction items with
  | nil => intro idx acc; simp [prepIterGo]
  | cons itemId is ih =>
    intro idx acc
    obtain ⟨bumps, counts, st⟩ := acc
    simp only [prepIterGo]
    by_cases hsk : skipThis cfg (heapGet heap itemId) (iterItemPath parent idx) = true
    · rw [if_pos hsk]; exact ih _ _
    · rw [if_neg hsk]
      by_cases hg : (!pids.isEmpty && pids.contains itemId) = true
      · rw [if_pos hg]; exact ih _ _
      · rw [if_neg hg]
        cases hch : hashChild itemId (iterItemPath parent idx)
            (pids.insert itemId) st with
        | decodeFail e => simp
        | noFuel =>
          exact absurd hch (H itemId _ st
            (contains_false_of_guard (by
              cases h2 : (!pids.isEmpty && pids.contains itemId) with
              | true => exact absurd h2 hg
              | false => rfl)))
        | ok r2 =>
          obtain ⟨⟨ih2, c2⟩, st2⟩ := r2
          exact ih _ _

theorem probe_ne_noFuel {o : Option (HRes × Nat)} {st : DHState}
    {k : Outcome ((HRes × Nat) × DHState)} (hk : k ≠ .noFuel) :
    (match o with
     | some rc => Outcome.ok (rc, st)
     | none => k) ≠ .noFuel := by
  cases o with
  | some rc => simp
  | none => exact hk

theorem mem_heapIds_of_lookup {heap : Heap} {j : Nat} {n : Node}
    (h : List.lookup j heap = some n) : j ∈ heapIds heap := by
  induction heap with
  | nil => cases h
  | cons p rest ih =>
    obtain ⟨a, b⟩ := p
    rw [List.lookup] at h
    by_cases hj : j = a
    · simp [heapIds, hj]
    · have hb : (j == a) = false := beq_eq_false_iff_ne.2 hj
      rw [hb] at h
      simp only [heapIds, List.map_cons, List.toFinset_cons, Finset.mem_insert]
      exact Or.inr (by simpa [heapIds] using ih h)

theorem unvisited_insert_lt {heap : Heap} {pids : List Nat} {j : Nat}
    (hj : j ∈ heapIds heap) (hcont : pids.contains j = false) :
    unvisited heap (pids.insert j) < unvisited heap pids := by
  unfold unvisited
  have hnot : j ∉ pids := by simpa using hcont
  have hmem : j ∈ heapIds heap \ pids.toFinset :=
    Finset.mem_sdiff.2 ⟨hj, by simpa using hnot⟩
  have hset : heapIds heap \ (pids.insert j).toFinset =
      (heapIds heap \ pids.toFinset).erase j := by
    ext x
    simp only [Finset.mem_sdiff, Finset.mem_erase, List.mem_toFinset,
      List.mem_insert_iff]
    tauto
  rw [hset]
  exact Finset.card_erase_lt_of_mem hmem

/-- Fuel exceeding the count of unvisited identities (plus slack for one
scalar leaf) suffices: `_hash` never exhausts the fuel, because every descent
into a composite child strictly extends the ancestor set within the heap's
identities. -/
theorem dhHash_ne_noFuel (cfg : DHConfig) (heap : Heap) :
    ∀ (f i : Nat) (parent : String) (pids : List Nat) (st : DHState),
      pids ≠ [] → unvisited heap pids + 1 < f →
      dhHash cfg heap f i parent pids st ≠ .noFuel := by
  intro f
  induction f with
  | zero => intro i parent pids st hp hf; omega
  | succ f ih =>
    intro i parent pids st hp hf
    have Hchild : ∀ j path st', pids.contains j = false →
        dhHash cfg heap f j path (pids.insert j) st' ≠ .noFuel := by
      intro j path st' hcont
      have hnotin : j ∉ pids := by simpa using hcont
      have hins : pids.insert j = j :: pids := by
        simp [List.insert, hnotin]
      cases hl : List.lookup j heap with
      | none =>
        have hnj : heapGet heap j = .atom .aNone := by
          unfold heapGet; rw [hl]; rfl
        cases f with
        | zero => omega
        | succ f' =>
          rw [dhHash_atom cfg heap f' hnj]
          exact hashAtomCore_ne_noFuel _ _ _ _
      | some n =>
        refine ih j path (pids.insert j) st' (by rw [hins]; simp) ?_
        have := unvisited_insert_lt (mem_heapIds_of_lookup hl) hcont
        omega
    cases hnode : heapGet heap i with
    | atom a =>
      rw [dhHash_atom cfg heap f hnode]
      exact hashAtomCore_ne_noFuel _ _ _ _
    | listN es =>
      rw [dhHash, hnode]
      dsimp only
      refine probe_ne_noFuel ?_
      by_cases hsk : skipThis cfg (.listN es) parent = true
      · simp [hsk]
      · rw [if_neg hsk]
        cases hgo : prepIterGo cfg heap
            (fun j path pids' st' => dhHash cfg heap f j path pids' st')
            parent pids es 0 ([], 1, st) with
        | decodeFail e => simp
        | noFuel =>
          exact absurd hgo (prepIterGo_ne_noFuel cfg heap _ parent pids
            (fun j path st' hc => Hchild j path st' hc) es 0 _)
        | ok r =>
          obtain ⟨x1, x2, st1⟩ := r
          exact dhFinish_ne_noFuel _ _ _ _ _ _
    | tupleN es =>
      rw [dhHash, hnode]
      dsimp only
      refine probe_ne_noFuel ?_
      by_cases hsk : skipThis cfg (.tupleN es) parent = true
      · simp [hsk]
      · rw [if_neg hsk]
        cases hgo : prepIterGo cfg heap
            (fun j path pids' st' => dhHash cfg heap f j path pids' st')
            parent pids es 0 ([], 1, st) with
        | decodeFail e => simp
        | noFuel =>
          exact absurd hgo (prepIterGo_ne_noFuel cfg heap _ parent pids
            (fun j path st' hc => Hchild j path st' hc) es 0 _)
        | ok r =>
          obtain ⟨x1, x2, st1⟩ := r
          exact dhFinish_ne_noFuel _ _ _ _ _ _
    | dictN entries =>
      rw [dhHash, hnode]
      dsimp only
      refine probe_ne_noFuel ?_
      by_cases hsk : skipThis cfg (.dictN entries) parent = true
      · simp [hsk]
      · rw [if_neg hsk]
        cases hgo : prepDictGo cfg heap
            (fun j path pids' st' => dhHash cfg heap f j path pids' st')
            false parent pids entries ([], 1, st) with
        | decodeFail e => simp
        | noFuel =>
          exact absurd hgo (prepDictGo_ne_noFuel cfg heap _ false parent pids
            (fun j path st' hc => Hchild j path st' hc) entries _)
        | ok r =>
          obtain ⟨x1, x2, st1⟩ := r
          exact dhFinish_ne_noFuel _ _ _ _ _ _
    | ntupleN sh =>
      rw [dhHash, hnode]
      dsimp only
      refine probe_ne_noFuel ?_
      by_cases hsk : skipThis cfg (.ntupleN sh) parent = true
      · simp [hsk]
      · rw [if_neg hsk]
        cases hex : objExtract true sh with
        | none => dsimp only; exact dhFinish_ne_noFuel _ _ _ _ _ _
        | some d =>
          dsimp only
          cases hgo : prepDictGo cfg heap
              (fun j path pids' st' => dhHash cfg heap f j path pids' st')
              true parent pids d ([], 1, st) with
          | decodeFail e => simp
          | noFuel =>
            exact absurd hgo (prepDictGo_ne_noFuel cfg heap _ true parent pids
              (fun j path st' hc => Hchild j path st' hc) d _)
          | ok r =>
            obtain ⟨x1, x2, st1⟩ := r
            exact dhFinish_ne_noFuel _ _ _ _ _ _
    | objN sh =>
      rw [dhHash, hnode]
      dsimp only
      refine probe_ne_noFuel ?_
      by_cases hsk : skipThis cfg (.objN sh) parent = true
      · simp [hsk]
      · rw [if_neg hsk]
        cases hex : objExtract false sh with
        | none => dsimp only; exact dhFinish_ne_noFuel _ _ _ _ _ _
        | some d =>
          dsimp only
          cases hgo : prepDictGo cfg heap
              (fun j path pids' st' => dhHash cfg heap f j path pids' st')
              true parent pids d ([], 1, st) with
          | decodeFail e => simp
          | noFuel =>
            exact absurd hgo (prepDictGo_ne_noFuel cfg heap _ true parent pids
              (fun j path st' hc => Hchild j path st' hc) d _)
          | ok r =>
            obtain ⟨x1, x2, st1⟩ := r
            exact dhFinish_ne_noFuel _ _ _ _ _ _

theorem unvisited_le_length (heap : Heap) (pids : List Nat) :
    unvisited heap pids ≤ heap.length := by
  unfold unvisited heapIds
  calc ((heap.map Prod.fst).toFinset \ pids.toFinset).card
      ≤ (heap.map Prod.fst).toFinset.card :=
        Finset.card_le_card Finset.sdiff_subset
    _ ≤ (heap.map Prod.fst).length := (heap.map Prod.fst).toFinset_card_le
    _ = heap.length := List.length_map _ _

theorem deepHashRun_notNoFuel (cfg : DHConfig) (heap : Heap)
    (seed : List (RKey × RVal)) (rootId : Nat) :
    (deepHashRun cfg heap seed rootId (defaultFuel heap)).isNoFuel = false := by
  have h : dhHash cfg heap (defaultFuel heap) rootId "root" [rootId]
      (initState seed) ≠ .noFuel := by
    refine dhHash_ne_noFuel cfg heap (defaultFuel heap) rootId "root" [rootId]
      (initState seed) (by simp) ?_
    have := unvisited_le_length heap [rootId]
    unfold defaultFuel
    omega
  unfold deepHashRun
  cases hh : dhHash cfg heap (defaultFuel heap) rootId "root" [rootId]
      (initState seed) with
  | noFuel => exact absurd hh h
  | decodeFail e => rfl
  | ok r =>
    obtain ⟨rc, st⟩ := r
    dsimp only
    by_cases he : (regUnprocessed st.hashes).isEmpty = true
    · rw [if_pos he]; rfl
    · rw [if_neg he]; rfl

/-- C7 (Cycle safety): with the default fuel — one unit per heap entry plus
two — a full `DeepHash` run never exhausts its fuel, for every configuration,
heap (cyclic or not), seed registry and root: a child whose identity is already
in the ancestor set is skipped rather than descended into, so the recursion
depth is bounded by the number of distinct identities.  Moreover two
independently constructed self-referential lists (a list at identity `1`
containing itself, and one at identity `5` containing itself) both hash
successfully to the same digest `hasher "str:list:"`, for every hasher. -/
theorem claim_C7 :
    (∀ (cfg : DHConfig) (heap : Heap) (seed : List (RKey × RVal)) (rootId : Nat),
      (deepHashRun cfg heap seed rootId (defaultFuel heap)).isNoFuel = false) ∧
    (∀ hasher : String → String,
      deepHashDigest (mkCfg hasher) [(1, Node.listN [1])] 1 =
          .ok (.strRes (hasher "str:list:")) ∧
      deepHashDigest (mkCfg hasher) [(5, Node.listN [5])] 5 =
          .ok (.strRes (hasher "str:list:"))) :=
  ⟨deepHashRun_notNoFuel, fun _ => ⟨rfl, rfl⟩⟩

/-! ### Registry growth: a run only adds or rebinds entries in the caller's
mapping (the seed is threaded as state, never copied) -/

/-- `st'` extends `st`: every registered key stays registered (possibly
rebound), and every newly traced write-back is registered in `st'`. -/
def stExtends (st st' : DHState) : Prop :=
  (∀ k v, regLookup st.hashes k = some v → ∃ v', regLookup st'.hashes k = some v') ∧
  (∀ k, k ∈ st'.trace → k ∈ st.trace ∨ ∃ v, regLookup st'.hashes k = some v)

theorem stExtends_refl (st : DHState) : stExtends st st :=
  ⟨fun _ v h => ⟨v, h⟩, fun _ h => Or.inl h⟩

theorem stExtends_trans {s1 s2 s3 : DHState}
    (h12 : stExtends s1 s2) (h23 : stExtends s2 s3) : stExtends s1 s3 := by
  refine ⟨fun k v h => ?_, fun k h => ?_⟩
  · obtain ⟨v', hv'⟩ := h12.1 k v h
    exact h23.1 k v' hv'
  · rcases h23.2 k h with h2 | h2
    · rcases h12.2 k h2 with h1 | ⟨v, hv⟩
      · exact Or.inl h1
      · obtain ⟨v', hv'⟩ := h23.1 k v hv
        exact Or.inr ⟨v', hv'⟩
    · exact Or.inr h2

theorem regLookup_regStore_some {reg : List (RKey × RVal)} {k' : RKey} {v' : RVal}
    (k : RKey) (v : RVal) (h : regLookup reg k' = some v') :
    ∃ w, regLookup (regStore reg k v) k' = some w := by
  rw [regLookup_regStore]
  by_cases hk : k' = k
  · exact ⟨v, by rw [if_pos hk]⟩
  · exact ⟨v', by rw [if_neg hk]; exact h⟩

theorem regStore_self_some (reg : List (RKey × RVal)) (k : RKey) (v : RVal) :
    regLookup (regStore reg k v) k = some v := by
  rw [regLookup_regStore, if_pos rfl]

theorem regAppendUnprocessed_some {reg : List (RKey × RVal)} {k' : RKey}
    {v' : RVal} (i : Nat) (h : regLookup reg k' = some v') :
    ∃ w, regLookup (regAppendUnprocessed reg i) k' = some w := by
  cases hl : regLookup reg RKey.unprocKey with
  | none =>
    unfold regAppendUnprocessed
    rw [hl]
    exact regLookup_regStore_some _ _ h
  | some rv =>
    cases rv with
    | he r c =>
      unfold regAppendUnprocessed
      rw [hl]
      exact regLookup_regStore_some _ _ h
    | unprocList l =>
      unfold regAppendUnprocessed
      rw [hl]
      exact regLookup_regStore_some _ _ h

/-- Writing one entry back and tracing its key is an extension. -/
theorem store_extends (st : DHState) (key : RKey) (v : RVal) :
    stExtends st ⟨regStore st.hashes key v, st.trace ++ [key]⟩ := by
  refine ⟨fun k w hv => regLookup_regStore_some _ _ hv, fun k hk => ?_⟩
  rcases List.mem_append.1 hk with hk | hk
  · exact Or.inl hk
  · have hkk : k = key := by simpa using hk
    subst hkk
    exact Or.inr ⟨v, regStore_self_some _ _ _⟩

theorem appendUnproc_extends (st : DHState) (i : Nat) :
    stExtends st ⟨regAppendUnprocessed st.hashes i, st.trace⟩ :=
  ⟨fun _ v hv => regAppendUnprocessed_some i hv, fun _ hk => Or.inl hk⟩

theorem hashAtomCore_extends {cfg : DHConfig} {a : Atom} {parent : String}
    {st : DHState} {rc : HRes × Nat} {st' : DHState}
    (h : hashAtomCore cfg a parent st = .ok (rc, st')) : stExtends st st' := by
  unfold hashAtomCore at h
  cases hpr : regEntry st.hashes (atomRKey a) with
  | some rc0 =>
    rw [hpr] at h
    dsimp only at h
    simp only [Outcome.ok.injEq, Prod.mk.injEq] at h
    obtain ⟨h1, h2⟩ := h
    subst h2
    exact stExtends_refl _
  | none =>
    rw [hpr] at h
    dsimp only at h
    by_cases hsk : skipThis cfg (.atom a) parent = true
    · rw [if_pos hsk] at h
      simp only [Outcome.ok.injEq, Prod.mk.injEq] at h
      obtain ⟨h1, h2⟩ := h
      subst h2
      exact stExtends_refl _
    · rw [if_neg hsk] at h
      cases hc : atomCanonical cfg a with
      | error e0 => rw [hc] at h; simp at h
      | ok canon =>
        rw [hc] at h
        dsimp only at h
        have core : ∀ b : Bool,
            (match applyHasher cfg b canon with
             | .error e => (Outcome.decodeFail e : Outcome ((HRes × Nat) × DHState))
             | .ok res =>
               .ok ((.strRes res, 1),
                    ⟨regStore st.hashes (atomRKey a) (.he (.strRes res) 1),
                     st.trace ++ [atomRKey a]⟩)) = .ok (rc, st') →
            stExtends st st' := by
          intro b hm
          cases hh : applyHasher cfg b canon with
          | error e0 => rw [hh] at hm; simp at hm
          | ok res =>
            rw [hh] at hm
            dsimp only at hm
            simp only [Outcome.ok.injEq, Prod.mk.injEq] at hm
            obtain ⟨h1, h2⟩ := hm
            subst h2
            exact store_extends _ _ _
        exact core (match a with
                    | .aStr _ => true
                    | .aBytes _ => true
                    | _ => false) h

theorem dhFinish_extends {cfg : DHConfig} {heap : Heap} {i : Nat} {res : HRes}
    {cnt : Nat} {st : DHState} {rc : HRes × Nat} {st' : DHState}
    (h : dhFinish cfg heap i res cnt st = .ok (rc, st')) : stExtends st st' := by
  unfold dhFinish at h
  cases res with
  | nil =>
    dsimp only at h
    simp only [Outcome.ok.injEq, Prod.mk.injEq] at h
    obtain ⟨h1, h2⟩ := h
    subst h2
    exact store_extends _ _ _
  | unproc =>
    dsimp only at h
    simp only [Outcome.ok.injEq, Prod.mk.injEq] at h
    obtain ⟨h1, h2⟩ := h
    subst h2
    exact store_extends _ _ _
  | strRes s =>
    dsimp only at h
    cases hh : applyHasher cfg false s with
    | error e0 => rw [hh] at h; simp at h
    | ok r =>
      rw [hh] at h
      dsimp only at h
      simp only [Outcome.ok.injEq, Prod.mk.injEq] at h
      obtain ⟨h1, h2⟩ := h
      subst h2
      exact store_extends _ _ _

theorem prepDictGo_extends (cfg : DHConfig) (heap : Heap)
    (hashChild : Nat → String → List Nat → DHState → Outcome ((HRes × Nat) × DHState))
    (printA : Bool) (parent : String) (pids : List Nat)
    (H : ∀ j path pids' st1 rc st2,
      hashChild j path pids' st1 = .ok (rc, st2) → stExtends st1 st2) :
    ∀ (entries : List (Atom × Nat)) (acc out : List String × Nat × DHState),
      prepDictGo cfg heap hashChild printA parent pids entries acc = .ok out →
      stExtends acc.2.2 out.2.2 := by
  intro entries
  induction entries with
  | nil =>
    intro acc out h
    simp only [prepDictGo, Outcome.ok.injEq] at h
    subst h
    exact stExtends_refl _
  | cons e es ih =>
    intro acc out h
    obtain ⟨key, itemId⟩ := e
    obtain ⟨frags, counts, st⟩ := acc
    simp only [prepDictGo] at h
    by_cases hpriv : privateKeySkip cfg key = true
    · rw [if_pos hpriv] at h
      exact ih (frags, counts + 1, st) out h
    · rw [if_neg hpriv] at h
      cases hkey : hashAtomCore cfg key (dictKeyPath printA parent key) st with
      | decodeFail e0 => rw [hkey] at h; simp at h
      | noFuel => rw [hkey] at h; simp at h
      | ok r =>
        obtain ⟨⟨kh, n⟩, st1⟩ := r
        rw [hkey] at h
        dsimp only at h
        have hstep : stExtends st st1 := hashAtomCore_extends hkey
        by_cases hf : hresFalsy kh = true
        · rw [if_pos hf] at h
          exact stExtends_trans hstep (ih _ _ h)
        · rw [if_neg hf] at h
          by_cases hg : (!pids.isEmpty && pids.contains itemId) = true
          · rw [if_pos hg] at h
            exact stExtends_trans hstep (ih _ _ h)
          · rw [if_neg hg] at h
            by_cases hsk : skipThis cfg (heapGet heap itemId)
                (dictKeyPath printA parent key) = true
            · rw [if_pos hsk] at h
              exact stExtends_trans hstep (ih _ _ h)
            · rw [if_neg hsk] at h
              cases hch : hashChild itemId (dictKeyPath printA parent key)
                  (pids.insert itemId) st1 with
              | decodeFail e0 => rw [hch] at h; simp at h
              | noFuel => rw [hch] at h; simp at h
              | ok r2 =>
                obtain ⟨⟨ih2, c2⟩, st2⟩ := r2
                rw [hch] at h
                dsimp only at h
                exact stExtends_trans hstep
                  (stExtends_trans (H _ _ _ _ _ _ hch) (ih _ _ h))

theorem prepIterGo_extends (cfg : DHConfig) (heap : Heap)
    (hashChild : Nat → String → List Nat → DHState → Outcome ((HRes × Nat) × DHState))
    (parent : String) (pids : List Nat)
    (H : ∀ j path pids' st1 rc st2,
      hashChild j path pids' st1 = .ok (rc, st2) → stExtends st1 st2) :
    ∀ (items : List Nat) (idx : Nat) (acc out : List (HRes × Nat) × Nat × DHState),
      prepIterGo cfg heap hashChild parent pids items idx acc = .ok out →
      stExtends acc.2.2 out.2.2 := by
  intro items
  induction items with
  | nil =>
    intro idx acc out h
    simp only [prepIterGo, Outcome.ok.injEq] at h
    subst h
    exact stExtends_refl _
  | cons itemId is ih =>
    intro idx acc out h
    obtain ⟨bumps, counts, st⟩ := acc
    simp only [prepIterGo] at h
    by_cases hsk : skipThis cfg (heapGet heap itemId) (iterItemPath parent idx) = true
    · rw [if_pos hsk] at h
      exact ih _ _ _ h
    · rw [if_neg hsk] at h
      by_cases hg : (!pids.isEmpty && pids.contains itemId) = true
      · rw [if_pos hg] at h
        exact ih _ _ _ h
      · rw [if_neg hg] at h
        cases hch : hashChild itemId (iterItemPath parent idx)
            (pids.insert itemId) st with
        | decodeFail e0 => rw [hch] at h; simp at h
        | noFuel => rw [hch] at h; simp at h
        | ok r2 =>
          obtain ⟨⟨ih2, c2⟩, st1⟩ := r2
          rw [hch] at h
          dsimp only at h
          exact stExtends_trans (H _ _ _ _ _ _ hch) (ih _ _ _ h)

/-- Monotonicity of `_hash` over the registry: a successful call only adds or
rebinds entries (nothing is deleted), and every key it traces is registered
in the resulting state. -/
theorem dhHash_extends (cfg : DHConfig) (heap : Heap) :
    ∀ (f i : Nat) (parent : String) (pids : List Nat) (st : DHState)
      (rc : HRes × Nat) (st' : DHState),
      dhHash cfg heap f i parent pids st = .ok (rc, st') → stExtends st st' := by
  intro f
  induction f with
  | zero =>
    intro i parent pids st rc st' h
    simp [dhHash] at h
  | succ f ih =>
    intro i parent pids st rc st' h
    have Hchild : ∀ (j : Nat) (path : String) (pids' : List Nat) (s1 : DHState)
        (rc2 : HRes × Nat) (s2 : DHState),
        dhHash cfg heap f j path pids' s1 = .ok (rc2, s2) → stExtends s1 s2 :=
      fun j path pids' s1 rc2 s2 hh => ih j path pids' s1 rc2 s2 hh
    cases hnode : heapGet heap i with
    | atom a =>
      rw [dhHash_atom cfg heap f hnode] at h
      exact hashAtomCore_extends h
    | listN es =>
      rw [dhHash, hnode] at h
      dsimp only at h
      cases hvk : valueKeyOf heap i with
      | some k =>
        rw [hvk] at h
        dsimp only at h
        cases hpr : regEntry st.hashes k with
        | some rc0 =>
          rw [hpr] at h
          dsimp only at h
          simp only [Outcome.ok.injEq, Prod.mk.injEq] at h
          obtain ⟨h1, h2⟩ := h
          subst h2
          exact stExtends_refl _
        | none =>
          rw [hpr] at h
          dsimp only at h
          by_cases hsk : skipThis cfg (.listN es) parent = true
          · rw [if_pos hsk] at h
            simp only [Outcome.ok.injEq, Prod.mk.injEq] at h
            obtain ⟨h1, h2⟩ := h
            subst h2
            exact stExtends_refl _
          · rw [if_neg hsk] at h
            cases hgo : prepIterGo cfg heap
                (fun j path pids' st' => dhHash cfg heap f j path pids' st')
                parent pids es 0 ([], 1, st) with
            | decodeFail e0 => rw [hgo] at h; simp at h
            | noFuel => rw [hgo] at h; simp at h
            | ok r =>
              obtain ⟨bumps, counts, st1⟩ := r
              rw [hgo] at h
              dsimp only at h
              exact stExtends_trans
                (prepIterGo_extends cfg heap _ parent pids Hchild es 0 _ _ hgo)
                (dhFinish_extends h)
      | none =>
        rw [hvk] at h
        dsimp only at h
        by_cases hsk : skipThis cfg (.listN es) parent = true
        · rw [if_pos hsk] at h
          simp only [Outcome.ok.injEq, Prod.mk.injEq] at h
          obtain ⟨h1, h2⟩ := h
          subst h2
          exact stExtends_refl _
        · rw [if_neg hsk] at h
          cases hgo : prepIterGo cfg heap
              (fun j path pids' st' => dhHash cfg heap f j path pids' st')
              parent pids es 0 ([], 1, st) with
          | decodeFail e0 => rw [hgo] at h; simp at h
          | noFuel => rw [hgo] at h; simp at h
          | ok r =>
            obtain ⟨bumps, counts, st1⟩ := r
            rw [hgo] at h
            dsimp only at h
            exact stExtends_trans
              (prepIterGo_extends cfg heap _ parent pids Hchild es 0 _ _ hgo)
              (dhFinish_extends h)
    | tupleN es =>
      rw [dhHash, hnode] at h
      dsimp only at h
      cases hvk : valueKeyOf heap i with
      | some k =>
        rw [hvk] at h
        dsimp only at h
        cases hpr : regEntry st.hashes k with
        | some rc0 =>
          rw [hpr] at h
          dsimp only at h
          simp only [Outcome.ok.injEq, Prod.mk.injEq] at h
          obtain ⟨h1, h2⟩ := h
          subst h2
          exact stExtends_refl _
        | none =>
          rw [hpr] at h
          dsimp only at h
          by_cases hsk : skipThis cfg (.tupleN es) parent = true
          · rw [if_pos hsk] at h
            simp only [Outcome.ok.injEq, Prod.mk.injEq] at h
            obtain ⟨h1, h2⟩ := h
            subst h2
            exact stExtends_refl _
          · rw [if_neg hsk] at h
            cases hgo : prepIterGo cfg heap
                (fun j path pids' st' => dhHash cfg heap f j path pids' st')
                parent pids es 0 ([], 1, st) with
            | decodeFail e0 => rw [hgo] at h; simp at h
            | noFuel => rw [hgo] at h; simp at h
            | ok r =>
              obtain ⟨bumps, counts, st1⟩ := r
              rw [hgo] at h
              dsimp only at h
              exact stExtends_trans
                (prepIterGo_extends cfg heap _ parent pids Hchild es 0 _ _ hgo)
                (dhFinish_extends h)
      | none =>
        rw [hvk] at h
        dsimp only at h
        by_cases hsk : skipThis cfg (.tupleN es) parent = true
        · rw [if_pos hsk] at h
          simp only [Outcome.ok.injEq, Prod.mk.injEq] at h
          obtain ⟨h1, h2⟩ := h
          subst h2
          exact stExtends_refl _
        · rw [if_neg hsk] at h
          cases hgo : prepIterGo cfg heap
              (fun j path pids' st' => dhHash cfg heap f j path pids' st')
              parent pids es 0 ([], 1, st) with
          | decodeFail e0 => rw [hgo] at h; simp at h
          | noFuel => rw [hgo] at h; simp at h
          | ok r =>
            obtain ⟨bumps, counts, st1⟩ := r
            rw [hgo] at h
            dsimp only at h
            exact stExtends_trans
              (prepIterGo_extends cfg heap _ parent pids Hchild es 0 _ _ hgo)
              (dhFinish_extends h)
    | dictN entries =>
      rw [dhHash, hnode] at h
      dsimp only at h
      cases hvk : valueKeyOf heap i with
      | some k =>
        rw [hvk] at h
        dsimp only at h
        cases hpr : regEntry st.hashes k with
        | some rc0 =>
          rw [hpr] at h
          dsimp only at h
          simp only [Outcome.ok.injEq, Prod.mk.injEq] at h
          obtain ⟨h1, h2⟩ := h
          subst h2
          exact stExtends_refl _
        | none =>
          rw [hpr] at h
          dsimp only at h
          by_cases hsk : skipThis cfg (.dictN entries) parent = true
          · rw [if_pos hsk] at h
            simp only [Outcome.ok.injEq, Prod.mk.injEq] at h
            obtain ⟨h1, h2⟩ := h
            subst h2
            exact stExtends_refl _
          · rw [if_neg hsk] at h
            cases hgo : prepDictGo cfg heap
                (fun j path pids' st' => dhHash cfg heap f j path pids' st')
                false parent pids entries ([], 1, st) with
            | decodeFail e0 => rw [hgo] at h; simp at h
            | noFuel => rw [hgo] at h; simp at h
            | ok r =>
              obtain ⟨frags, counts, st1⟩ := r
              rw [hgo] at h
              dsimp only at h
              exact stExtends_trans
                (prepDictGo_extends cfg heap _ false parent pids Hchild entries _ _ hgo)
                (dhFinish_extends h)
      | none =>
        rw [hvk] at h
        dsimp only at h
        by_cases hsk : skipThis cfg (.dictN entries) parent = true
        · rw [if_pos hsk] at h
          simp only [Outcome.ok.injEq, Prod.mk.injEq] at h
          obtain ⟨h1, h2⟩ := h
          subst h2
          exact stExtends_refl _
        · rw [if_neg hsk] at h
          cases hgo : prepDictGo cfg heap
              (fun j path pids' st' => dhHash cfg heap f j path pids' st')
              false parent pids entries ([], 1, st) with
          | decodeFail e0 => rw [hgo] at h; simp at h
          | noFuel => rw [hgo] at h; simp at h
          | ok r =>
            obtain ⟨frags, counts, st1⟩ := r
            rw [hgo] at h
            dsimp only at h
            exact stExtends_trans
              (prepDictGo_extends cfg heap _ false parent pids Hchild entries _ _ hgo)
              (dhFinish_extends h)
    | ntupleN sh =>
      rw [dhHash, hnode] at h
      dsimp only at h
      cases hvk : valueKeyOf heap i with
      | some k =>
        rw [hvk] at h
        dsimp only at h
        cases hpr : regEntry st.hashes k with
        | some rc0 =>
          rw [hpr] at h
          dsimp only at h
          simp only [Outcome.ok.injEq, Prod.mk.injEq] at h
          obtain ⟨h1, h2⟩ := h
          subst h2
          exact stExtends_refl _
        | none =>
          rw [hpr] at h
          dsimp only at h
          by_cases hsk : skipThis cfg (.ntupleN sh) parent = true
          · rw [if_pos hsk] at h
            simp only [Outcome.ok.injEq, Prod.mk.injEq] at h
            obtain ⟨h1, h2⟩ := h
            subst h2
            exact stExtends_refl _
          · rw [if_neg hsk] at h
            cases hex : objExtract true sh with
            | none =>
              rw [hex] at h
              dsimp only at h
              exact stExtends_trans (appendUnproc_extends st i) (dhFinish_extends h)
            | some d =>
              rw [hex] at h
              dsimp only at h
              cases hgo : prepDictGo cfg heap
                  (fun j path pids' st' => dhHash cfg heap f j path pids' st')
                  true parent pids d ([], 1, st) with
              | decodeFail e0 => rw [hgo] at h; simp at h
              | noFuel => rw [hgo] at h; simp at h
              | ok r =>
                obtain ⟨frags, counts, st1⟩ := r
                rw [hgo] at h
                dsimp only at h
                exact stExtends_trans
                  (prepDictGo_extends cfg heap _ true parent pids Hchild d _ _ hgo)
                  (dhFinish_extends h)
      | none =>
        rw [hvk] at h
        dsimp only at h
        by_cases hsk : skipThis cfg (.ntupleN sh) parent = true
        · rw [if_pos hsk] at h
          simp only [Outcome.ok.injEq, Prod.mk.injEq] at h
          obtain ⟨h1, h2⟩ := h
          subst h2
          exact stExtends_refl _
        · rw [if_neg hsk] at h
          cases hex : objExtract true sh with
          | none =>
            rw [hex] at h
            dsimp only at h
            exact stExtends_trans (appendUnproc_extends st i) (dhFinish_extends h)
          | some d =>
            rw [hex] at h
            dsimp only at h
            cases hgo : prepDictGo cfg heap
                (fun j path pids' st' => dhHash cfg heap f j path pids' st')
                true parent pids d ([], 1, st) with
            | decodeFail e0 => rw [hgo] at h; simp at h
            | noFuel => rw [hgo] at h; simp at h
            | ok r =>
              obtain ⟨frags, counts, st1⟩ := r
              rw [hgo] at h
              dsimp only at h
              exact stExtends_trans
                (prepDictGo_extends cfg heap _ true parent pids Hchild d _ _ hgo)
                (dhFinish_extends h)
    | objN sh =>
      rw [dhHash, hnode] at h
      dsimp only at h
      cases hvk : valueKeyOf heap i with
      | some k =>
        rw [hvk] at h
        dsimp only at h
        cases hpr : regEntry st.hashes k with
        | some rc0 =>
          rw [hpr] at h
          dsimp only at h
          simp only [Outcome.ok.injEq, Prod.mk.injEq] at h
          obtain ⟨h1, h2⟩ := h
          subst h2
          exact stExtends_refl _
        | none =>
          rw [hpr] at h
          dsimp only at h
          by_cases hsk : skipThis cfg (.objN sh) parent = true
          · rw [if_pos hsk] at h
            simp only [Outcome.ok.injEq, Prod.mk.injEq] at h
            obtain ⟨h1, h2⟩ := h
            subst h2
            exact stExtends_refl _
          · rw [if_neg hsk] at h
            cases hex : objExtract false sh with
            | none =>
              rw [hex] at h
              dsimp only at h
              exact stExtends_trans (appendUnproc_extends st i) (dhFinish_extends h)
            | some d =>
              rw [hex] at h
              dsimp only at h
              cases hgo : prepDictGo cfg heap
                  (fun j path pids' st' => dhHash cfg heap f j path pids' st')
                  true parent pids d ([], 1, st) with
              | decodeFail e0 => rw [hgo] at h; simp at h
              | noFuel => rw [hgo] at h; simp at h
              | ok r =>
                obtain ⟨frags, counts, st1⟩ := r
                rw [hgo] at h
                dsimp only at h
                exact stExtends_trans
                  (prepDictGo_extends cfg heap _ true parent pids Hchild d _ _ hgo)
                  (dhFinish_extends h)
      | none =>
        rw [hvk] at h
        dsimp only at h
        by_cases hsk : skipThis cfg (.objN sh) parent = true
        · rw [if_pos hsk] at h
          simp only [Outcome.ok.injEq, Prod.mk.injEq] at h
          obtain ⟨h1, h2⟩ := h
          subst h2
          exact stExtends_refl _
        · rw [if_neg hsk] at h
          cases hex : objExtract false sh with
          | none =>
            rw [hex] at h
            dsimp only at h
            exact stExtends_trans (appendUnproc_extends st i) (dhFinish_extends h)
          | some d =>
            rw [hex] at h
            dsimp only at h
            cases hgo : prepDictGo cfg heap
                (fun j path pids' st' => dhHash cfg heap f j path pids' st')
                true parent pids d ([], 1, st) with
            | decodeFail e0 => rw [hgo] at h; simp at h
            | noFuel => rw [hgo] at h; simp at h
            | ok r =>
              obtain ⟨frags, counts, st1⟩ := r
              rw [hgo] at h
              dsimp only at h
              exact stExtends_trans
                (prepDictGo_extends cfg heap _ true parent pids Hchild d _ _ hgo)
                (dhFinish_extends h)

/-- C10 (Seed-registry aliasing): the caller's mapping is taken as the run's
registry state and mutated in place — modelled by threading it as the state.
For every run that returns: (i) at the start `UNPROCESSED_KEY` is bound to
`[]` in the caller's mapping while every other seeded entry is kept untouched;
(ii) at the end `UNPROCESSED_KEY` is either gone (deleted when nothing was
unprocessed) or holds the nonempty unprocessed list; (iii) every other seeded
key is still registered (possibly rebound to a freshly computed entry); and
(iv) every `(hash, count)` write-back performed during the run (one ghost
trace element each) is present in the caller's mapping at the end. -/
theorem claim_C10 (cfg : DHConfig) (heap : Heap) (seed : List (RKey × RVal))
    (rootId fuel : Nat) (rc : HRes × Nat) (stF : DHState)
    (hrun : deepHashRun cfg heap seed rootId fuel = .ok (rc, stF)) :
    regLookup (initState seed).hashes .unprocKey = some (.unprocList []) ∧
    (∀ k v, k ≠ .unprocKey → regLookup seed k = some v →
      regLookup (initState seed).hashes k = some v) ∧
    (regLookup stF.hashes .unprocKey = none ∨
      ∃ l, l ≠ [] ∧ regLookup stF.hashes .unprocKey = some (.unprocList l)) ∧
    (∀ k, k ≠ .unprocKey → (∃ v, regLookup seed k = some v) →
      ∃ v', regLookup stF.hashes k = some v') ∧
    (∀ k, k ∈ stF.trace → k ≠ .unprocKey →
      ∃ v, regLookup stF.hashes k = some v) := by
  have hinit1 : regLookup (initState seed).hashes .unprocKey =
      some (.unprocList []) := regStore_self_some _ _ _
  have hinit2 : ∀ k v, k ≠ .unprocKey → regLookup seed k = some v →
      regLookup (initState seed).hashes k = some v := by
    intro k v hk hv
    show regLookup (regStore seed .unprocKey (.unprocList [])) k = some v
    rw [regLookup_regStore, if_neg hk]
    exact hv
  unfold deepHashRun at hrun
  cases hh : dhHash cfg heap fuel rootId "root" [rootId] (initState seed) with
  | decodeFail e => rw [hh] at hrun; simp at hrun
  | noFuel => rw [hh] at hrun; simp at hrun
  | ok r =>
    obtain ⟨rc1, st1⟩ := r
    rw [hh] at hrun
    dsimp only at hrun
    have hext : stExtends (initState seed) st1 :=
      dhHash_extends cfg heap fuel rootId "root" [rootId] (initState seed)
        rc1 st1 hh
    by_cases hemp : (regUnprocessed st1.hashes).isEmpty = true
    · rw [if_pos hemp] at hrun
      simp only [Outcome.ok.injEq, Prod.mk.injEq] at hrun
      obtain ⟨h1, h2⟩ := hrun
      subst h2
      refine ⟨hinit1, hinit2, Or.inl (regLookup_regDel_self _ _), ?_, ?_⟩
      · rintro k hk ⟨v, hv⟩
        obtain ⟨v', hv'⟩ := hext.1 k v (hinit2 k v hk hv)
        exact ⟨v', by rw [regLookup_regDel _ _ _ hk]; exact hv'⟩
      · intro k hkt hk
        rcases hext.2 k hkt with hin | ⟨v, hv⟩
        · exact absurd hin (by simp [initState])
        · exact ⟨v, by rw [regLookup_regDel _ _ _ hk]; exact hv⟩
    · rw [if_neg hemp] at hrun
      simp only [Outcome.ok.injEq, Prod.mk.injEq] at hrun
      obtain ⟨h1, h2⟩ := hrun
      subst h2
      refine ⟨hinit1, hinit2, Or.inr ?_, ?_, ?_⟩
      · unfold regUnprocessed at hemp
        cases hl : regLookup st1.hashes RKey.unprocKey with
        | none => rw [hl] at hemp; simp at hemp
        | some rv =>
          cases rv with
          | he r c => rw [hl] at hemp; simp at hemp
          | unprocList l =>
            rw [hl] at hemp
            dsimp only at hemp
            refine ⟨l, ?_, rfl⟩
            intro hnil
            exact hemp (by rw [hnil]; rfl)
      · rintro k hk ⟨v, hv⟩
        exact hext.1 k v (hinit2 k v hk hv)
      · intro k hkt hk
        rcases hext.2 k hkt with hin | hv
        · exact absurd hin (by simp [initState])
        · exact hv

def c10heap : Heap := [(0, Node.listN [])]

def c10seed : List (RKey × RVal) := [(.byId 99, .he .nil 0)]

/-- The final state of the C10 witness run: the seeded entry survives, the
root's digest entry is added, the sentinel is gone, one write-back traced. -/
def c10st : DHState :=
  ⟨[(.byId 99, .he .nil 0), (.byId 0, .he (.strRes "str:list:") 1)], [.byId 0]⟩

theorem claim_C10_witness :
    deepHashRun (mkCfg (fun s => s)) c10heap c10seed 0 (defaultFuel c10heap) =
      .ok ((HRes.strRes "str:list:", 1), c10st) ∧
    (regLookup (initState c10seed).hashes .unprocKey = some (.unprocList []) ∧
     (∀ k v, k ≠ .unprocKey → regLookup c10seed k = some v →
       regLookup (initState c10seed).hashes k = some v) ∧
     (regLookup c10st.hashes .unprocKey = none ∨
       ∃ l, l ≠ [] ∧ regLookup c10st.hashes .unprocKey = some (.unprocList l)) ∧
     (∀ k, k ≠ .unprocKey → (∃ v, regLookup c10seed k = some v) →
       ∃ v', regLookup c10st.hashes k = some v') ∧
     (∀ k, k ∈ c10st.trace → k ≠ .unprocKey →
       ∃ v, regLookup c10st.hashes k = some v)) :=
  ⟨rfl, claim_C10 (mkCfg (fun s => s)) c10heap c10seed 0 (defaultFuel c10heap)
    (HRes.strRes "str:list:", 1) c10st rfl⟩

/-! ### C5 setup: excluding exactly one element path of a flat list -/

/-- The default configuration with a choice of digesting. -/
def c5cfgB (hasher : String → String) (applyFlag : Bool) : DHConfig :=
  { mkCfg hasher with applyHash := applyFlag }

/-- The same configuration with the single exact exclude path `root[k]`. -/
def c5cfgA (hasher : String → String) (applyFlag : Bool) (k : Nat) : DHConfig :=
  { c5cfgB hasher applyFlag with excludePaths := [iterItemPath "root" k] }

theorem c5_atomPure (hasher : String → String) (applyFlag : Bool) (k : Nat)
    (a : Atom) :
    atomPure (c5cfgA hasher applyFlag k) a = atomPure (c5cfgB hasher applyFlag) a := by
  cases a <;> rfl

theorem c5_atomOk (hasher : String → String) (applyFlag : Bool) (k : Nat)
    (a : Atom) :
    atomOk (c5cfgA hasher applyFlag k) a = atomOk (c5cfgB hasher applyFlag) a := by
  unfold atomOk
  rw [c5_atomPure]

theorem c5_atomDigest (hasher : String → String) (applyFlag : Bool) (k : Nat)
    (a : Atom) :
    atomDigest (c5cfgA hasher applyFlag k) a =
      atomDigest (c5cfgB hasher applyFlag) a := by
  unfold atomDigest
  rw [c5_atomPure]

theorem c5_iterResultString (hasher : String → String) (applyFlag : Bool) (k : Nat)
    (t : String) (bs : List (HRes × Nat)) :
    iterResultString (c5cfgA hasher applyFlag k) t bs =
      iterResultString (c5cfgB hasher applyFlag) t bs := rfl

theorem c5_finishApplied (hasher : String → String) (applyFlag : Bool) (k : Nat)
    (s : String) :
    finishApplied (c5cfgA hasher applyFlag k) s =
      finishApplied (c5cfgB hasher applyFlag) s := rfl

theorem c5_noFilterB (hasher : String → String) (applyFlag : Bool) :
    NoFilter (c5cfgB hasher applyFlag) := ⟨rfl, rfl, rfl, rfl, rfl⟩

theorem c5_skip_ne (hasher : String → String) (applyFlag : Bool) {k m : Nat}
    (hm : m ≠ k) (n : Node) :
    skipThis (c5cfgA hasher applyFlag k) n (iterItemPath "root" m) = false := by
  rw [skipThis_onlyExclude rfl rfl rfl rfl]
  simp only [c5cfgA]
  simp
  exact iterItemPath_ne_of_ne hm

theorem c5_skip_at_k (hasher : String → String) (applyFlag : Bool) (k : Nat)
    (n : Node) :
    skipThis (c5cfgA hasher applyFlag k) n (iterItemPath "root" k) = true := by
  rw [skipThis_onlyExclude rfl rfl rfl rfl]
  simp [c5cfgA]

theorem iterItemPath_ne_root (p : String) (k : Nat) : iterItemPath p k ≠ p := by
  intro hc
  have hlen := congrArg String.length hc
  simp only [iterItemPath, String.length_append] at hlen
  have e2 : ("[" : String).length = 1 := rfl
  have e3 : ("]" : String).length = 1 := rfl
  rw [e2, e3] at hlen
  omega

theorem c5_skip_root (hasher : String → String) (applyFlag : Bool) (k : Nat)
    (n : Node) :
    skipThis (c5cfgA hasher applyFlag k) n "root" = false := by
  rw [skipThis_onlyExclude rfl rfl rfl rfl]
  simp only [c5cfgA]
  simp
  exact fun hc => iterItemPath_ne_root "root" k hc.symm

/-- C5 (Path-exclusion transparency): for every flat scalar sequence and
every position `k`, hashing with the single exact exclude path `root[k]`
yields the same digest as genuinely hashing the shorter sequence lacking
element `k` — the element position feeds only the per-element path, never the
canonical string, so the skipped element leaves no trace and the later
elements' shifted positions change nothing.  Holds for every hasher, with or
without digesting (`applyFlag`). -/
theorem claim_C5 (hasher : String → String) (applyFlag : Bool)
    (l : List Atom) (k : Nat) (hk : k < l.length)
    (hok : l.all (atomOk (c5cfgB hasher applyFlag)) = true) :
    deepHashDigest (c5cfgA hasher applyFlag k) (mkListHeap l) 0 =
      deepHashDigest (c5cfgB hasher applyFlag) (mkListHeap (l.eraseIdx k)) 0 := by
  have hkle : k ≤ l.length := Nat.le_of_lt hk
  have hprelen : (l.take k).length = k := List.length_take_of_le hkle
  have herase : l.eraseIdx k = l.take k ++ l.drop (k + 1) :=
    List.eraseIdx_eq_take_drop_succ l k
  obtain ⟨a, ha⟩ : ∃ x, l[k]? = some x :=
    ⟨l.get ⟨k, hk⟩, by rw [List.getElem?_eq_getElem hk]; rfl⟩
  have hdecomp : l = l.take k ++ a :: l.drop (k + 1) := by
    conv_lhs => rw [← List.take_append_drop k l]
    rw [List.drop_eq_getElem_cons hk]
    rw [List.getElem?_eq_getElem hk] at ha
    injection ha with ha'
    rw [ha']
  have hokB : ∀ x ∈ l, atomOk (c5cfgB hasher applyFlag) x = true := by
    simpa using hok
  -- resolution of the two heaps' segments
  have hresPreA : resolvesAtomsB (mkListHeap l) [0]
      (listIdsFrom (l.take k) 1) (l.take k) = true := by
    refine resolves_listIds _ _ 1 (by omega) ?_
    intro m x hx
    have hml : m < (l.take k).length := (List.getElem?_eq_some_iff.1 hx).1
    have hmk : m < k := by
      rw [hprelen] at hml
      exact hml
    have hx' : l[m]? = some x := by
      rw [← List.getElem?_take_of_lt hmk]
      exact hx
    exact heapGet_mkListHeap hx'
  have hresPostA : resolvesAtomsB (mkListHeap l) [0]
      (listIdsFrom (l.drop (k + 1)) (1 + k + 1)) (l.drop (k + 1)) = true := by
    refine resolves_listIds _ _ (1 + k + 1) (by omega) ?_
    intro m x hx
    have hx' : l[k + 1 + m]? = some x := by
      rw [← List.getElem?_drop]
      exact hx
    have hres := heapGet_mkListHeap hx'
    have harith : 1 + k + 1 + m = 1 + (k + 1 + m) := by omega
    rwa [harith]
  have hresPreB : resolvesAtomsB (mkListHeap (l.take k ++ l.drop (k + 1))) [0]
      (listIdsFrom (l.take k) 1) (l.take k) = true := by
    refine resolves_listIds _ _ 1 (by omega) ?_
    intro m x hx
    have hml : m < (l.take k).length := (List.getElem?_eq_some_iff.1 hx).1
    have hx' : (l.take k ++ l.drop (k + 1))[m]? = some x := by
      rw [List.getElem?_append_left hml]
      exact hx
    exact heapGet_mkListHeap hx'
  have hresPostB : resolvesAtomsB (mkListHeap (l.take k ++ l.drop (k + 1))) [0]
      (listIdsFrom (l.drop (k + 1)) (1 + k)) (l.drop (k + 1)) = true := by
    refine resolves_listIds _ _ (1 + k) (by omega) ?_
    intro m x hx
    have hx' : (l.take k ++ l.drop (k + 1))[k + m]? = some x := by
      rw [List.getElem?_append_right (by omega : (l.take k).length ≤ k + m)]
      rw [hprelen]
      have harith : k + m - k = m := by omega
      rw [harith]
      exact hx
    have hres := heapGet_mkListHeap hx'
    have harith : 1 + k + m = 1 + (k + m) := by omega
    rwa [harith]
  -- the four segment loops
  obtain ⟨st1, hpreA, hco1⟩ := prepIterGo_atoms (c5cfgA hasher applyFlag k)
    (mkListHeap l) (l.length + 1) "root" [0]
    (listIdsFrom (l.take k) 1) (l.take k) 0 [] 1 (initState [])
    hresPreA
    (by
      rw [List.all_eq_true]
      intro x hx
      rw [c5_atomOk]
      exact hokB x (List.take_subset _ _ hx))
    (by
      intro m x hx
      have hml : m < (l.take k).length := (List.getElem?_eq_some_iff.1 hx).1
      have hmk : m < k := by rw [hprelen] at hml; exact hml
      simpa using c5_skip_ne hasher applyFlag (Nat.ne_of_lt hmk) (.atom x))
    (atomCoherent_init _)
  obtain ⟨st2, hpostA, hco2⟩ := prepIterGo_atoms (c5cfgA hasher applyFlag k)
    (mkListHeap l) (l.length + 1) "root" [0]
    (listIdsFrom (l.drop (k + 1)) (1 + k + 1)) (l.drop (k + 1)) (k + 1)
    (List.foldl bumpCount []
      ((l.take k).map (fun x => HRes.strRes (atomDigest (c5cfgA hasher applyFlag k) x))))
    (1 + k) st1
    hresPostA
    (by
      rw [List.all_eq_true]
      intro x hx
      rw [c5_atomOk]
      exact hokB x (List.drop_subset _ _ hx))
    (by
      intro m x hx
      exact c5_skip_ne hasher applyFlag (by omega : k + 1 + m ≠ k) (.atom x))
    hco1
  obtain ⟨st1', hpreB, hco1'⟩ := prepIterGo_atoms (c5cfgB hasher applyFlag)
    (mkListHeap (l.take k ++ l.drop (k + 1)))
    ((l.take k ++ l.drop (k + 1)).length + 1) "root" [0]
    (listIdsFrom (l.take k) 1) (l.take k) 0 [] 1 (initState [])
    hresPreB
    (by
      rw [List.all_eq_true]
      intro x hx
      exact hokB x (List.take_subset _ _ hx))
    (fun m x _ => skipThis_noFilter (c5_noFilterB hasher applyFlag) _ _)
    (atomCoherent_init _)
  obtain ⟨st2', hpostB, hco2'⟩ := prepIterGo_atoms (c5cfgB hasher applyFlag)
    (mkListHeap (l.take k ++ l.drop (k + 1)))
    ((l.take k ++ l.drop (k + 1)).length + 1) "root" [0]
    (listIdsFrom (l.drop (k + 1)) (1 + k)) (l.drop (k + 1)) k
    (List.foldl bumpCount []
      ((l.take k).map (fun x => HRes.strRes (atomDigest (c5cfgB hasher applyFlag) x))))
    (1 + k) st1'
    hresPostB
    (by
      rw [List.all_eq_true]
      intro x hx
      exact hokB x (List.drop_subset _ _ hx))
    (fun m x _ => skipThis_noFilter (c5_noFilterB hasher applyFlag) _ _)
    hco1'
  -- identity lists of the two loops
  have hidsA : listIdsFrom l 1 =
      listIdsFrom (l.take k) 1 ++
        ((1 + k) :: listIdsFrom (l.drop (k + 1)) (1 + k + 1)) := by
    conv_lhs => rw [hdecomp]
    rw [listIdsFrom_append, hprelen]
    rfl
  have hidsB : listIdsFrom (l.take k ++ l.drop (k + 1)) 1 =
      listIdsFrom (l.take k) 1 ++ listIdsFrom (l.drop (k + 1)) (1 + k) := by
    rw [listIdsFrom_append, hprelen]
  -- the assembled loops
  have hloopA : prepIterGo (c5cfgA hasher applyFlag k) (mkListHeap l)
      (fun j path pids' s => dhHash (c5cfgA hasher applyFlag k) (mkListHeap l)
        (Nat.succ (l.length + 1)) j path pids' s)
      "root" [0] (listIdsFrom l 1) 0 ([], 1, initState []) =
      .ok (List.foldl bumpCount
             (List.foldl bumpCount []
               ((l.take k).map
                 (fun x => HRes.strRes (atomDigest (c5cfgA hasher applyFlag k) x))))
             ((l.drop (k + 1)).map
               (fun x => HRes.strRes (atomDigest (c5cfgA hasher applyFlag k) x))),
           1 + k + (l.drop (k + 1)).length, st2) := by
    rw [hidsA, prepIterGo_append, hpreA]
    dsimp only
    simp only [listIdsFrom_length, hprelen, Nat.zero_add]
    rw [prepIterGo_skip _ _ _ _ _ _ _ _ _
      (c5_skip_at_k hasher applyFlag k (heapGet (mkListHeap l) (1 + k)))]
    exact hpostA
  have hloopB : prepIterGo (c5cfgB hasher applyFlag)
      (mkListHeap (l.take k ++ l.drop (k + 1)))
      (fun j path pids' s => dhHash (c5cfgB hasher applyFlag)
        (mkListHeap (l.take k ++ l.drop (k + 1)))
        (Nat.succ ((l.take k ++ l.drop (k + 1)).length + 1)) j path pids' s)
      "root" [0] (listIdsFrom (l.take k ++ l.drop (k + 1)) 1) 0
      ([], 1, initState []) =
      .ok (List.foldl bumpCount
             (List.foldl bumpCount []
               ((l.take k).map
                 (fun x => HRes.strRes (atomDigest (c5cfgB hasher applyFlag) x))))
             ((l.drop (k + 1)).map
               (fun x => HRes.strRes (atomDigest (c5cfgB hasher applyFlag) x))),
           1 + k + (l.drop (k + 1)).length, st2') := by
    rw [hidsB, prepIterGo_append, hpreB]
    dsimp only
    simp only [listIdsFrom_length, hprelen, Nat.zero_add]
    exact hpostB
  -- run-level assembly
  have hdhA := dhHash_flatList_core (c5cfgA hasher applyFlag k) l (l.length + 1)
    (c5_skip_root hasher applyFlag k _) _ _ _ hloopA
  have hdhB := dhHash_flatList_core (c5cfgB hasher applyFlag)
    (l.take k ++ l.drop (k + 1)) ((l.take k ++ l.drop (k + 1)).length + 1)
    (skipThis_noFilter (c5_noFilterB hasher applyFlag) _ _) _ _ _ hloopB
  have hdigA := deepHashDigest_eq (c5cfgA hasher applyFlag k) (mkListHeap l) 0 _ _
    (by rw [defaultFuel_mkListHeap]; exact hdhA)
  have hdigB := deepHashDigest_eq (c5cfgB hasher applyFlag)
    (mkListHeap (l.take k ++ l.drop (k + 1))) 0 _ _
    (by rw [defaultFuel_mkListHeap]; exact hdhB)
  rw [herase, hdigA, hdigB]
  dsimp only
  rw [c5_finishApplied, c5_iterResultString]
  simp only [c5_atomDigest]

theorem claim_C5_witness :
    1 < ([Atom.aInt 10, Atom.aInt 20, Atom.aInt 30] : List Atom).length ∧
    ([Atom.aInt 10, Atom.aInt 20, Atom.aInt 30] : List Atom).all
      (atomOk (c5cfgB (fun s => s) true)) = true ∧
    deepHashDigest (c5cfgA (fun s => s) true 1)
        (mkListHeap [Atom.aInt 10, Atom.aInt 20, Atom.aInt 30]) 0 =
      deepHashDigest (c5cfgB (fun s => s) true)
        (mkListHeap ([Atom.aInt 10, Atom.aInt 20, Atom.aInt 30].eraseIdx 1)) 0 :=
  ⟨by decide, by decide,
   claim_C5 (fun s => s) true [Atom.aInt 10, Atom.aInt 20, Atom.aInt 30] 1
     (by decide) (by decide)⟩

end DeepHashModel
